import Mathlib

/-!
Verification of the token-passing-games repository (dreidel.py,
left_center_right.py, unrank.py).

The Python sources are shallowly embedded below: Python lists become Lean
`List`s, Python ints become `Nat` or `Int` (states manipulated by the game
rules use `Int`, since intermediate player holdings can be negative, e.g.
after a forced payment with `min_coins = 0`), Python `%` on ints with a
positive divisor agrees with `Int.emod` (Lean's `%`), and Python `while`
loops become fueled structural recursions (the fuel passed at each call
site is proved sufficient, so the embedding computes by `decide`).
Fallible operations (Python exceptions such as `ZeroDivisionError` or
`ValueError`) are modelled with `Option`, the exceptional case mapping to
`none`.
-/

/-! ### Level-driving recursion of `solve` (dreidel.py lines 17-45,
left_center_right.py lines 18-49)

Both `Dreidel.solve` and `LeftCenterRight.solve` share the identical
level-driving skeleton:

    while self.marker + 1 < target:
        self.solve(self.marker + 1)
    self.marker = target
    <assemble sparse system; one gmres call; record level values>

`solveStep fuel m L calls` returns the pair (final marker, total number of
gmres calls) of a call `solve(L)` on an object whose stored marker
(`num_players` for Dreidel, `total_coins` for LeftCenterRight) is `m` and
that has already issued `calls` gmres calls.  An inner recursive call
`solve(m + 1)` finds its own while-condition false at once, so it performs
exactly the else-branch; after it returns, the remaining execution of the
outer call (the rest of the while loop plus the tail) is exactly the body
of `solve` again with the updated marker, which is what the second
recursive call models.  The fuel (one unit per modelled re-entry) is
always sufficient: `solveStep` is only applied with fuel `L + 2`, and the
marker grows by one per loop iteration. -/
def solveStep : Nat → Nat → Nat → Nat → Nat × Nat
  | 0, m, _, calls => (m, calls)
  | fuel + 1, m, L, calls =>
    if m + 1 < L then
      let inner := solveStep fuel m (m + 1) calls
      solveStep fuel inner.1 L inner.2
    else (L, calls + 1)

/-- Effect of a top-level `solve(L)` call on an object with stored marker
`m`: the resulting marker and the number of linear solves (matrix
assemblies plus gmres calls) issued. -/
def solve_marker_calls (m L : Nat) : Nat × Nat := solveStep (L + 2) m L 0

/-! ### Post-gmres tail of `solve` (dreidel.py lines 42-45,
left_center_right.py lines 46-49)

    x, info = gmres(...)
    assert(info == 0)
    for (state, turn), v in zip(self.all_states(...), x):
        self.values[(state, turn)] = v

`finishSolve info entries values` models the execution from the gmres
return onwards: `values` is the contents of the value table before the
call, `entries` the level entries that the final loop would insert.  The
boolean records whether `solve` returned normally; a failed assertion
(`info != 0`) propagates `AssertionError` before the recording loop runs,
leaving the table untouched. -/
def finishSolve {α : Type} (info : Int) (entries values : List α) :
    List α × Bool :=
  if info = 0 then (values ++ entries, true) else (values, false)

/-! ### Base right-hand-side terms (left_center_right.py lines 28-31,
dreidel.py line 28) -/

/-- Value appended to (terminal rows) or initialized for (other rows) the
right-hand side of a `LeftCenterRight.solve` row, before any successor
contributions are folded in:

    if state[turn] == total_coins:
        b.append(0 if self.is_ev or turn != 0 else 1); continue
    value = 1 if self.is_ev and state[turn] != 0 else 0 -/
def lcrRowBase (isEv : Bool) (state : List Nat) (turn totalCoins : Nat) :
    Nat :=
  if state.getD turn 0 = totalCoins then
    if isEv || turn ≠ 0 then 0 else 1
  else
    if isEv && state.getD turn 0 ≠ 0 then 1 else 0

/-- Base right-hand-side term of a `Dreidel.solve` row
(`value = 1 if self.is_ev else 0`, dreidel.py line 28). -/
def dreidelRowBase (isEv : Bool) : Nat := if isEv then 1 else 0

/-! ### Combinatorial indexer (unrank.py)

`rank_subset` embeds

    def rank_subset(S, n=None):
        return sum(math.comb(c, j + 1) for j, c in enumerate(S))

via the helper `rankFrom j S`, which sums the terms of `enumerate` starting
at index `j`. -/

def rankFrom : Nat → List Nat → Nat
  | _, [] => 0
  | j, c :: S => Nat.choose c (j + 1) + rankFrom (j + 1) S

def rank_subset (S : List Nat) : Nat := rankFrom 0 S

/-- Inner while loop of the effective (last-defined, binary-search)
`unrank_subset`:

    lower = k - 1
    while lower < n:
        mid = (lower + n + 1) // 2
        if r < math.comb(mid, k): n = mid - 1
        else: lower = mid

The interval length `n - lower` strictly decreases at every iteration, so
fuel `n - lower + 1` (what the sole call site passes) always suffices;
when the fuel runs out the current `n` is returned. -/
def searchLoop (r k : Nat) : Nat → Nat → Nat → Nat
  | 0, _, n => n
  | fuel + 1, lower, n =>
    if lower < n then
      let mid := (lower + n + 1) / 2
      if r < Nat.choose mid k then searchLoop r k fuel lower (mid - 1)
      else searchLoop r k fuel mid n
    else n

/-- Binary-search `unrank_subset` (unrank.py lines 40-55).  The Python
version fills slot `k-1` (the largest element) first and then continues
with the updated `r`, `n`, `k`; the recursion below appends that largest
element after the recursively unranked prefix. -/
def unrank_subset : Nat → Nat → Nat → List Nat
  | _, _, 0 => []
  | r, n, k + 1 =>
    let m := searchLoop r (k + 1) (n - k + 1) k n
    unrank_subset (r - Nat.choose m (k + 1)) m k ++ [m]

/-- Running cumulative sums with accumulator `a` (np.cumsum offset by an
initial accumulator). -/
def cumsumFrom (a : Nat) : List Nat → List Nat
  | [] => []
  | c :: l => (a + c) :: cumsumFrom (a + c) l

/-- `rank_weak_composition` (unrank.py lines 67-69):

    return rank_subset(np.cumsum(np.array(x[:-1]) + 1) - 1) -/
def rank_weak_composition (x : List Nat) : Nat :=
  rank_subset ((cumsumFrom 0 (x.dropLast.map (· + 1))).map (· - 1))

/-- Successive differences against a running predecessor, each decremented
by one: `diffDec p (c :: l)` starts with `c - p` (for the top-level call
`p = 0` this is `c - (-1) - 1`, matching np.diff's `prepend=-1` boundary
followed by the global `- 1`) and continues with predecessor `c + 1`
(i.e. subsequent entries are `next - c - 1`).  The subtraction is on `Nat`
but never truncates on the inputs `unrank_weak_composition` produces,
because the unranked subset is strictly increasing (proved below). -/
def diffDec (p : Nat) : List Nat → List Nat
  | [] => []
  | c :: l => (c - p) :: diffDec (c + 1) l

/-- `unrank_weak_composition` (unrank.py lines 71-74):

    return list(np.diff(np.array(unrank_subset(r, s + n - 1, n - 1)),
                        prepend=-1, append=s + n - 1) - 1) -/
def unrank_weak_composition (r n s : Nat) : List Nat :=
  diffDec 0 (unrank_subset r (s + n - 1) (n - 1) ++ [s + n - 1])

/-! ### Round-trip for weak compositions (C4) -/

/-- The running predecessor value `diffDec` carries after consuming a
list: `p` for the empty list, `last + 1` otherwise. -/
def accAfter (p : Nat) : List Nat → Nat
  | [] => p
  | c :: l => accAfter (c + 1) l

/-! ### State enumeration (dreidel.py lines 47-57,
left_center_right.py lines 51-58)

`LeftCenterRight.all_states(total_coins)` yields, for each rank in
`range(comb(total_coins + num_players - 1, num_players - 1))`, the
unranked state followed by every turn index; `Dreidel.all_states` does the
same over `comb(num_coins - 1 - num_players * (min_coins - 1),
num_players)` ranks, translating each unranked weak composition by adding
`min_coins` to every player slot and `1` to the pot slot.  The two Python
arithmetic expressions involving `min_coins - 1` are computed on signed
ints, hence the explicit `Int` detour with `toNat` below. -/

def lcr_all_states (np totalCoins : Nat) : List (List Nat × Nat) :=
  (List.range (Nat.choose (totalCoins + np - 1) (np - 1))).flatMap
    (fun rank => (List.range np).map
      (fun turn => (unrank_weak_composition rank np totalCoins, turn)))

/-- Column index of a same-level successor in `LeftCenterRight.solve`
(line 43): `rank_weak_composition(next_state) * num_players + next_turn`. -/
def lcrColIndex (np : Nat) (state : List Nat) (turn : Nat) : Nat :=
  rank_weak_composition state * np + turn

/-- State translation of `Dreidel.all_states` (lines 54-55):
`tuple([c + min_coins for c in state[:-1]] + [state[-1] + 1])`. -/
def dreidelDecode (minCoins : Nat) (x : List Nat) : List Nat :=
  x.dropLast.map (· + minCoins) ++ [x.getLastD 0 + 1]

def dreidel_all_states (np numCoins minCoins : Nat) : List (List Nat × Nat) :=
  (List.range (Nat.choose
      (((numCoins : Int) - 1 - np * ((minCoins : Int) - 1)).toNat) np)).flatMap
    (fun rank => (List.range np).map
      (fun turn => (dreidelDecode minCoins (unrank_weak_composition rank (np + 1)
        (((numCoins : Int) - 1 - np * (minCoins : Int)).toNat)), turn)))

/-- Inverse translation used when `Dreidel.solve` computes a same-level
column (lines 38-40): `[c - self.min_coins for c in next_state[:-1]] +
[next_state[-1] - 1]`.  (On the nonnegative same-level successor states it
is applied to, the `Nat` subtraction agrees with Python's.) -/
def dreidelEncode (minCoins : Nat) (state : List Nat) : List Nat :=
  state.dropLast.map (· - minCoins) ++ [state.getLastD 0 - 1]

/-- Column index of a same-level successor in `Dreidel.solve`
(lines 38-40). -/
def dreidelColIndex (minCoins np : Nat) (state : List Nat) (turn : Nat) :
    Nat :=
  rank_weak_composition (dreidelEncode minCoins state) * np + turn

/-! ### Dice-game transition model (left_center_right.py lines 60-70) -/

/-- The six die faces `[-1, self.num_players, 1, 0, 0, 0]` (pass left,
discard to the center, pass right, three blanks). -/
def dieList (np : Nat) : List Int := [-1, (np : Int), 1, 0, 0, 0]

/-- All die sequences of a given length
(`itertools.product([-1, np, 1, 0, 0, 0], repeat=k)`).  Each sequence
occurs exactly once; the enumeration order differs from `product`'s but
the solver only consumes the multiset of successors (through a
`Counter`). -/
def rollSeqs (np : Nat) : Nat → List (List Int)
  | 0 => [[]]
  | k + 1 => (dieList np).flatMap (fun d => (rollSeqs np k).map (d :: ·))

/-- Effect of one die (lines 66-69):

    next_state[turn] -= 1
    if die < self.num_players:
        next_state[(turn + die) % self.num_players] += 1 -/
def applyDie (np turn : Nat) (s : List Int) (d : Int) : List Int :=
  let s1 := s.set turn (s.getD turn 0 - 1)
  if d < (np : Int) then
    let i := (((turn : Int) + d) % (np : Int)).toNat
    s1.set i (s1.getD i 0 + 1)
  else s1

/-- `LeftCenterRight.next_states` (lines 60-70): one successor per die
sequence of length `min(state[turn], max_rolls)`, each paired with the
next turn `(turn + 1) % num_players`. -/
def lcr_next_states (np maxRolls : Nat) (state : List Int) (turn : Nat) :
    List (List Int × Nat) :=
  (rollSeqs np (min (state.getD turn 0).toNat maxRolls)).map
    (fun roll => (roll.foldl (applyDie np turn) state, (turn + 1) % np))

/-- Probability mass `LeftCenterRight.solve` (lines 32-34) attaches to the
deduplicated successors: each distinct `(next_state, next_turn)` receives
`count / counter.total()`, `counter.total()` being the number of raw
successors. -/
def counterProbSum {α : Type} [DecidableEq α] (l : List α) : ℚ :=
  (l.dedup.map (fun x => (l.count x : ℚ) / l.length)).sum

/-! ### Coin-game transition model (dreidel.py lines 59-97) -/

/-- In-place update `state[-1] = v` of the last slot. -/
def setLast (s : List Int) (v : Int) : List Int := s.dropLast ++ [v]

/-- Loop of `Dreidel.remove_losers` (lines 91-96):

    while lose in state:
        state[-1] += lose
        player = state.index(lose)
        del state[player]
        if player <= turn: turn -= 1

One unit of fuel per iteration; the caller passes `state.length + 1`,
which suffices because every iteration deletes one element.  A
`ValueError` from `state.index` (the sole occurrence of `lose` was the
last slot and was changed by the `+=` before `index` ran) is modelled as
`none`. -/
def removeLoop (lose : Int) : Nat → List Int → Int → Option (List Int × Int)
  | 0, _, _ => none
  | fuel + 1, state, turn =>
    if lose ∈ state then
      let state1 := setLast state (state.getLastD 0 + lose)
      if lose ∈ state1 then
        let player := state1.indexOf lose
        removeLoop lose fuel (state1.eraseIdx player)
          (if (player : Int) ≤ turn then turn - 1 else turn)
      else none
    else some (state, turn)

/-- `Dreidel.remove_losers` (lines 86-97).  The final turn renumbering
`(turn + 1) % (len(state) - 1)` raises `ZeroDivisionError` when no active
player is left; that is modelled as `none`. -/
def remove_losers (isEv : Bool) (minCoins : Int) (state : List Int)
    (turn : Int) : Option (List Int × Int) :=
  let lose := minCoins - 1
  if state.head? = some lose ∧ isEv = false then some ([0], 0)
  else
    match removeLoop lose (state.length + 1) state turn with
    | none => none
    | some (s, t) =>
      if (s.length : Int) - 1 = 0 then none
      else some (s, (t + 1) % ((s.length : Int) - 1))

/-- Gimel outcome (dreidel.py lines 65-69): the active player takes the
whole pot, then every player antes one coin and the pot is reset to
`num_players`. -/
def gimelState (np : Nat) (state : List Int) (turn : Nat) : List Int :=
  let s1 := state.set turn (state.getD turn 0 + state.getLastD 0)
  s1.dropLast.map (· - 1) ++ [(np : Int)]

/-- Hei outcome (dreidel.py lines 71-78): the active player takes
`(pot + half_odd) // 2` from the pot; if that empties the pot, every
player antes one coin and the pot is reset to `num_players`.  (Python's
floor division `//` agrees with `Int` division here: the pot and
`half_odd` are nonnegative wherever the solver applies this.) -/
def heiState (np : Nat) (halfOdd : Int) (state : List Int) (turn : Nat) :
    List Int :=
  let win := (state.getLastD 0 + halfOdd) / 2
  let s1 := state.set turn (state.getD turn 0 + win)
  let s2 := setLast s1 (s1.getLastD 0 - win)
  if s2.getLastD 0 = 0 then s2.dropLast.map (· - 1) ++ [(np : Int)]
  else s2

/-- Shin outcome (dreidel.py lines 80-84): the active player puts one
coin into the pot. -/
def shinState (state : List Int) (turn : Nat) : List Int :=
  let s1 := state.set turn (state.getD turn 0 - 1)
  setLast s1 (s1.getLastD 0 + 1)

/-- `Dreidel.next_states` (lines 59-84): the four equally likely spin
outcomes Nun, Gimel, Hei, Shin, each filtered through `remove_losers`. -/
def dreidel_next_states (isEv : Bool) (minCoins : Int) (np : Nat)
    (halfOdd : Int) (state : List Int) (turn : Nat) :
    List (Option (List Int × Int)) :=
  [remove_losers isEv minCoins state (turn : Int),
   remove_losers isEv minCoins (gimelState np state turn) (turn : Int),
   remove_losers isEv minCoins (heiState np halfOdd state turn) (turn : Int),
   remove_losers isEv minCoins (shinState state turn) (turn : Int)]

/-! ## Claim C1 -/

theorem solveStep_closed (fuel : Nat) : ∀ m L calls, L - m < fuel →
    solveStep fuel m L calls = (L, calls + max (L - m) 1) := by
  induction fuel with
  | zero => intro m L calls h; omega
  | succ fuel ih =>
    intro m L calls h
    rw [solveStep]
    by_cases hm : m + 1 < L
    · simp only [if_pos hm]
      rw [ih m (m + 1) calls (by omega)]
      rw [ih (m + 1) L (calls + max (m + 1 - m) 1) (by omega)]
      rw [Prod.mk.injEq]
      omega
    · simp only [if_neg hm]
      rw [Prod.mk.injEq]
      omega

/-- C1 (counterexample): the claim says that calling `solve(L)` on an
object whose stored marker already equals `L` issues no new linear solve.
On the code, a repeat call `solve(2)` with marker `2` finds the
while-condition false, resets the marker and unconditionally performs one
more matrix assembly and gmres call: the number of solves issued is 1, not
0. -/
theorem claim1_counterexample : (solve_marker_calls 2 2).2 ≠ 0 := by decide

/-- C1 (amended): `solve` contains no skip check for an already-solved
level.  A call `solve(L)` on an object with stored marker `m` always sets
the marker to `L` and issues `max (L - m) 1` matrix assemblies / gmres
calls; in particular a redundant call with `m = L` re-issues exactly one
linear solve (re-recording the level-`L` value-table entries) instead of
issuing none. -/
theorem claim1_solve_reissues (m L : Nat) :
    solve_marker_calls m L = (L, max (L - m) 1) := by
  have h := solveStep_closed (L + 2) m L 0 (by omega)
  simpa [solve_marker_calls] using h

/-! ## Claim C2 -/

/-- C2 (counterexample): in expected-turn-count mode, the state `(0, 1, 1)`
with 3 players and `total_coins = 2` has not ended (no player holds all
coins, every player is still in the game), yet the base right-hand-side
term initialized for its turn-0 row is `0`, not `1`: the code initializes
`1` only when additionally `state[turn] != 0`. -/
theorem claim2_counterexample :
    (2 ∉ ([0, 1, 1] : List Nat)) ∧ lcrRowBase true [0, 1, 1] 0 2 = 0 := by
  decide

/-- C2 (amended): in expected-turn-count mode the base right-hand-side
term of a row equals 1 exactly when the current player neither holds all
the coins (the terminal check of line 28) nor holds zero coins (a
zero-coin player's turn is a free pass and does not count as a turn);
already-ended rows and zero-holding rows get 0.  In the coin game, whose
enumerated states are never terminal, the expected-turn-count base term is
always 1. -/
theorem claim2_base_rhs (state : List Nat) (turn totalCoins : Nat) :
    (lcrRowBase true state turn totalCoins = 1 ↔
      (state.getD turn 0 ≠ totalCoins ∧ state.getD turn 0 ≠ 0)) ∧
    dreidelRowBase true = 1 := by
  refine ⟨?_, rfl⟩
  unfold lcrRowBase
  split_ifs with h1 h2 h3 <;> simp_all

/-! ## Claim C7 -/

/-- C7: if the iterative solver reports a nonzero failure status, the
`assert(info == 0)` raises before the recording loop runs: `solve` aborts
abnormally (second component `false`) and the value table is exactly as it
was before the call. -/
theorem claim7_gmres_failure_aborts {α : Type} (info : Int)
    (entries values : List α) (h : info ≠ 0) :
    finishSolve info entries values = (values, false) := by
  simp [finishSolve, h]

/-- Witness for C7 at a concrete failing status. -/
theorem claim7_witness :
    (1 : Int) ≠ 0 ∧ finishSolve 1 [5] [7] = ([7], false) :=
  ⟨by decide, claim7_gmres_failure_aborts 1 [5] [7] (by decide)⟩

/-! ### Correctness of the binary search -/

theorem searchLoop_spec (r k : Nat) : ∀ fuel lower n, n - lower < fuel →
    lower ≤ n → Nat.choose lower k ≤ r → r < Nat.choose (n + 1) k →
    lower ≤ searchLoop r k fuel lower n ∧ searchLoop r k fuel lower n ≤ n ∧
    Nat.choose (searchLoop r k fuel lower n) k ≤ r ∧
    r < Nat.choose (searchLoop r k fuel lower n + 1) k := by
  intro fuel
  induction fuel with
  | zero => intro lower n h; omega
  | succ fuel ih =>
    intro lower n hfuel hle hlo hhi
    rw [searchLoop]
    by_cases hln : lower < n
    · simp only [if_pos hln]
      by_cases hmid : r < Nat.choose ((lower + n + 1) / 2) k
      · simp only [if_pos hmid]
        have hsub : (lower + n + 1) / 2 - 1 + 1 = (lower + n + 1) / 2 := by
          omega
        have hmid' : r < Nat.choose ((lower + n + 1) / 2 - 1 + 1) k := by
          rw [hsub]; exact hmid
        have h := ih lower ((lower + n + 1) / 2 - 1) (by omega) (by omega)
          hlo hmid'
        exact ⟨h.1, le_trans h.2.1 (by omega), h.2.2⟩
      · simp only [if_neg hmid]
        have h := ih ((lower + n + 1) / 2) n (by omega) (by omega)
          (by omega) hhi
        exact ⟨by omega, h.2⟩
    · simp only [if_neg hln]
      have hn : lower = n := by omega
      subst hn
      exact ⟨le_refl _, le_refl _, hlo, hhi⟩

/-! ### Round-trip for subsets (C3) -/

theorem rankFrom_append (m : Nat) : ∀ (T : List Nat) (j : Nat),
    rankFrom j (T ++ [m]) = rankFrom j T + Nat.choose m (j + T.length + 1) := by
  intro T
  induction T with
  | nil => intro j; simp [rankFrom]
  | cons c T ih =>
    intro j
    have hc : (c :: T) ++ [m] = c :: (T ++ [m]) := rfl
    rw [hc, rankFrom, rankFrom, ih (j + 1), List.length_cons]
    have he : j + 1 + T.length + 1 = j + (T.length + 1) + 1 := by omega
    rw [he]
    omega

theorem unrank_subset_spec : ∀ (k n r : Nat), k ≤ n → r < Nat.choose n k →
    (unrank_subset r n k).length = k ∧
    (∀ x ∈ unrank_subset r n k, x < n) ∧
    (unrank_subset r n k).Sorted (· < ·) ∧
    rank_subset (unrank_subset r n k) = r := by
  intro k
  induction k with
  | zero =>
    intro n r _ hr
    refine ⟨rfl, by simp [unrank_subset], by simp [unrank_subset], ?_⟩
    have : r = 0 := by simpa [Nat.choose] using hr
    simp [unrank_subset, rank_subset, rankFrom, this]
  | succ k ih =>
    intro n r hk hr
    have hsearch := searchLoop_spec r (k + 1) (n - k + 1) k n (by omega)
      (by omega) (by simp [Nat.choose_eq_zero_of_lt]) 
      (lt_of_lt_of_le hr (Nat.choose_le_choose _ (by omega)))
    set m := searchLoop r (k + 1) (n - k + 1) k n with hm
    obtain ⟨hm1, hm2, hm3, hm4⟩ := hsearch
    have hmn : m < n := by
      by_contra hcon
      have hmn' : m = n := by omega
      rw [hmn'] at hm3
      omega
    have hr' : r - Nat.choose m (k + 1) < Nat.choose m k := by
      have := Nat.choose_succ_succ m k
      have h5 : Nat.choose (m + 1) (k + 1) = Nat.choose m k + Nat.choose m (k + 1) := by
        simpa using Nat.choose_succ_succ m k
      omega
    obtain ⟨ih1, ih2, ih3, ih4⟩ := ih m (r - Nat.choose m (k + 1)) (by omega) hr'
    have hunfold : unrank_subset r n (k + 1) =
        unrank_subset (r - Nat.choose m (k + 1)) m k ++ [m] := by
      rw [unrank_subset]
    rw [hunfold]
    refine ⟨by simp [ih1], ?_, ?_, ?_⟩
    · intro x hx
      rcases List.mem_append.1 hx with h | h
      · exact lt_trans (ih2 x h) hmn
      · simp at h; omega
    · rw [List.Sorted, List.pairwise_append]
      exact ⟨ih3, List.pairwise_singleton _ _, by simpa using ih2⟩
    · rw [rank_subset, rankFrom_append, ih1]
      have : rank_subset (unrank_subset (r - Nat.choose m (k + 1)) m k) =
          r - Nat.choose m (k + 1) := ih4
      rw [rank_subset] at this
      rw [this]
      simp only [Nat.zero_add]
      omega

/-- C3: for every `0 <= k <= n` and `0 <= r < C(n, k)`, the binary-search
`unrank_subset` returns a strictly increasing `k`-element subset of
`{0..n-1}` whose colex rank is `r` again. -/
theorem claim3_subset_roundtrip (n k r : Nat) (hk : k ≤ n)
    (hr : r < Nat.choose n k) :
    rank_subset (unrank_subset r n k) = r ∧
    (unrank_subset r n k).length = k ∧
    (unrank_subset r n k).Sorted (· < ·) ∧
    ∀ x ∈ unrank_subset r n k, x < n := by
  obtain ⟨h1, h2, h3, h4⟩ := unrank_subset_spec k n r hk hr
  exact ⟨h4, h1, h3, h2⟩

/-- Witness for C3 at `n = 4`, `k = 2`, `r = 3`
(`unrank_subset 3 4 2 = [0, 3]`). -/
theorem claim3_witness : 2 ≤ 4 ∧ 3 < Nat.choose 4 2 ∧
    rank_subset (unrank_subset 3 4 2) = 3 ∧
    (unrank_subset 3 4 2).length = 2 :=
  ⟨by decide, by decide, (claim3_subset_roundtrip 4 2 3 (by decide) (by decide)).1,
   (claim3_subset_roundtrip 4 2 3 (by decide) (by decide)).2.1⟩

theorem diffDec_length : ∀ (l : List Nat) (p : Nat),
    (diffDec p l).length = l.length := by
  intro l
  induction l with
  | nil => intro p; rfl
  | cons c l ih => intro p; simp [diffDec, ih]

theorem diffDec_append (t : Nat) : ∀ (l : List Nat) (p : Nat),
    diffDec p (l ++ [t]) = diffDec p l ++ [t - accAfter p l] := by
  intro l
  induction l with
  | nil => intro p; rfl
  | cons c l ih =>
    intro p
    have hc : (c :: l) ++ [t] = c :: (l ++ [t]) := rfl
    rw [hc, diffDec, ih (c + 1), diffDec]
    rfl

theorem cumsum_diffDec : ∀ (l : List Nat) (p : Nat),
    (∀ x ∈ l.head?, p ≤ x) → l.Chain' (· < ·) →
    (cumsumFrom p ((diffDec p l).map (· + 1))).map (· - 1) = l := by
  intro l
  induction l with
  | nil => intro p _ _; rfl
  | cons c l ih =>
    intro p hp hchain
    have hpc : p ≤ c := hp c rfl
    have hsum : p + (c - p + 1) = c + 1 := by omega
    rw [diffDec, List.map_cons, cumsumFrom, hsum, List.map_cons]
    have hhead : ∀ x ∈ l.head?, c + 1 ≤ x := by
      intro x hx
      have := (List.chain'_cons'.1 hchain).1 x hx
      omega
    rw [ih (c + 1) hhead (List.chain'_cons'.1 hchain).2]
    simp

theorem diffDec_sum : ∀ (rest : List Nat) (m p g : Nat), p ≤ m →
    List.Chain (· < ·) m rest → (m :: rest).getLast? = some g →
    (diffDec p (m :: rest)).sum + p + rest.length + 1 = g + 1 := by
  intro rest
  induction rest with
  | nil =>
    intro m p g hpm _ hg
    simp only [List.getLast?_singleton, Option.some_inj] at hg
    subst hg
    simp only [diffDec, List.sum_cons, List.sum_nil, List.length_nil]
    omega
  | cons c rest ih =>
    intro m p g hpm hchain hg
    rw [List.getLast?_cons_cons] at hg
    rw [List.chain_cons] at hchain
    have := ih c (m + 1) g (by omega) hchain.2 hg
    simp only [diffDec, List.sum_cons, List.length_cons] at this ⊢
    omega

theorem unrank_weak_spec (n s r : Nat) (hn : 1 ≤ n)
    (hr : r < Nat.choose (s + n - 1) (n - 1)) :
    rank_weak_composition (unrank_weak_composition r n s) = r ∧
    (unrank_weak_composition r n s).length = n ∧
    (unrank_weak_composition r n s).sum = s := by
  obtain ⟨hlen, hbound, hsorted, hrank⟩ :=
    unrank_subset_spec (n - 1) (s + n - 1) r (by omega) hr
  set S := unrank_subset r (s + n - 1) (n - 1) with hS
  have hx : unrank_weak_composition r n s = diffDec 0 (S ++ [s + n - 1]) := rfl
  have hxlen : (unrank_weak_composition r n s).length = n := by
    rw [hx, diffDec_length]
    simp [hlen]
    omega
  have hxdrop : (unrank_weak_composition r n s).dropLast = diffDec 0 S := by
    rw [hx, diffDec_append, List.dropLast_concat]
  refine ⟨?_, hxlen, ?_⟩
  · rw [rank_weak_composition, hxdrop]
    have hhead : ∀ x ∈ (S.map (· + 1) |> fun _ => S).head?, 0 ≤ x := by
      intro x _; omega
    rw [cumsum_diffDec S 0 (fun x _ => Nat.zero_le x) hsorted.chain']
    exact hrank
  · rw [hx]
    rcases S with _ | ⟨m, rest⟩
    · have hn1 : n = 1 := by
        simp only [List.length_nil] at hlen
        omega
      subst hn1
      simp [diffDec]
    · have hpair : List.Pairwise (· < ·) ((m :: rest) ++ [s + n - 1]) := by
        rw [List.pairwise_append]
        refine ⟨hsorted, List.pairwise_singleton _ _, ?_⟩
        intro a ha b hb
        simp only [List.mem_singleton] at hb
        subst hb
        exact hbound a ha
      have hchain : List.Chain (· < ·) m (rest ++ [s + n - 1]) :=
        List.chain_iff_pairwise.2 hpair
      have hlast : ((m :: rest) ++ [s + n - 1]).getLast? = some (s + n - 1) :=
        List.getLast?_concat _
      have hcc : (m :: rest) ++ [s + n - 1] = m :: (rest ++ [s + n - 1]) := rfl
      rw [hcc] at hlast
      have := diffDec_sum (rest ++ [s + n - 1]) m 0 (s + n - 1)
        (Nat.zero_le m) hchain hlast
      rw [hcc]
      simp only [List.length_append, List.length_cons, List.length_nil] at this hlen ⊢
      omega

/-- C4: for every `n >= 1` and every rank `r < C(s+n-1, n-1)`,
`unrank_weak_composition r n s` is a length-`n` vector of (nonnegative)
integers summing to `s`, and `rank_weak_composition` maps it back to `r`. -/
theorem claim4_weak_composition_roundtrip (n s r : Nat) (hn : 1 ≤ n)
    (hr : r < Nat.choose (s + n - 1) (n - 1)) :
    rank_weak_composition (unrank_weak_composition r n s) = r ∧
    (unrank_weak_composition r n s).length = n ∧
    (unrank_weak_composition r n s).sum = s :=
  unrank_weak_spec n s r hn hr

/-- Witness for C4 at `n = 3`, `s = 2`, `r = 4`. -/
theorem claim4_witness : 1 ≤ 3 ∧ 4 < Nat.choose (2 + 3 - 1) (3 - 1) ∧
    rank_weak_composition (unrank_weak_composition 4 3 2) = 4 ∧
    (unrank_weak_composition 4 3 2).sum = 2 :=
  ⟨by decide, by decide,
   (claim4_weak_composition_roundtrip 3 2 4 (by decide) (by decide)).1,
   (claim4_weak_composition_roundtrip 3 2 4 (by decide) (by decide)).2.2⟩

/-! ### Indexing the enumeration (C5) -/

theorem flatMap_range_length {α : Type} (f : Nat → List α) (w : Nat)
    (hlen : ∀ i, (f i).length = w) :
    ∀ N, ((List.range N).flatMap f).length = N * w := by
  intro N
  induction N with
  | zero => simp
  | succ N ih =>
    rw [List.range_succ, List.flatMap_append, List.length_append, ih]
    simp only [List.flatMap_cons, List.flatMap_nil, List.append_nil, hlen]
    ring

theorem flatMap_range_getElem? {α : Type} (f : Nat → List α) (w : Nat)
    (hlen : ∀ i, (f i).length = w) : ∀ N r t, r < N → t < w →
    ((List.range N).flatMap f)[r * w + t]? = (f r)[t]? := by
  intro N
  induction N with
  | zero => intro r t hr _; omega
  | succ N ih =>
    intro r t hr ht
    rw [List.range_succ, List.flatMap_append, List.getElem?_append,
      flatMap_range_length f w hlen N]
    by_cases hrN : r < N
    · have h1 : (r + 1) * w = r * w + w := by ring
      have h2 : (r + 1) * w ≤ N * w := Nat.mul_le_mul_right w (by omega)
      rw [if_pos (by omega)]
      exact ih r t hrN ht
    · have hrN' : r = N := by omega
      subst hrN'
      rw [if_neg (by omega)]
      have h3 : r * w + t - r * w = t := by omega
      rw [h3]
      simp only [List.flatMap_cons, List.flatMap_nil, List.append_nil]

theorem getLastD_of_ne_nil {α : Type} (x : List α) (d : α) (hx : x ≠ []) :
    x.getLastD d = x.getLast hx := by
  rw [List.getLastD_eq_getLast?, List.getLast?_eq_getLast x hx]
  rfl

theorem dreidelEncode_decode (minCoins : Nat) (x : List Nat) (hx : x ≠ []) :
    dreidelEncode minCoins (dreidelDecode minCoins x) = x := by
  unfold dreidelEncode dreidelDecode
  rw [List.dropLast_concat, List.getLastD_concat, List.map_map]
  have hmap : x.dropLast.map ((· - minCoins) ∘ (· + minCoins)) = x.dropLast := by
    rw [show ((· - minCoins) ∘ (· + minCoins) : Nat → Nat) =
      (fun c => c + minCoins - minCoins) from rfl]
    rw [List.map_congr_left (fun c _ => by simp : ∀ c ∈ x.dropLast,
      c + minCoins - minCoins = id c)]
    exact List.map_id _
  rw [hmap]
  have hlast : x.getLastD 0 + 1 - 1 = x.getLast hx := by
    rw [getLastD_of_ne_nil x 0 hx]
    omega
  rw [hlast]
  exact List.dropLast_append_getLast hx

theorem dreidel_bounds (np nc mc : Nat) (hnc : np * mc + 1 ≤ nc) :
    ((nc : Int) - 1 - np * ((mc : Int) - 1)).toNat = (nc - 1 - np * mc) + np ∧
    ((nc : Int) - 1 - np * (mc : Int)).toNat = nc - 1 - np * mc := by
  have hnc2 : np * mc + 1 ≤ nc := hnc
  have hb : ((np * mc : Nat) : Int) = (np : Int) * (mc : Int) := by
    push_cast; ring
  have hd : (np : Int) * ((mc : Int) - 1) = (np : Int) * (mc : Int) - np := by
    ring
  constructor
  · rw [hd]; omega
  · omega

/-- C5: in both games, the enumeration position `r * num_players + turn`
of `all_states` holds exactly the pair `(state_r, turn)` where `state_r`
is the state unranked from `r`, and ranking that state back (after the
coin game's encoding that subtracts `min_coins` from each player slot and
1 from the pot slot) yields `r` again; consequently the column index
`rank * num_players + turn` that `solve` assigns to a same-level
successor equals that successor's own row index in the linear system. -/
theorem claim5_row_column_consistency :
    (∀ np total r t : Nat, 1 ≤ np → r < Nat.choose (total + np - 1) (np - 1) →
      t < np →
      (lcr_all_states np total)[r * np + t]? =
        some (unrank_weak_composition r np total, t) ∧
      lcrColIndex np (unrank_weak_composition r np total) t = r * np + t) ∧
    (∀ np nc mc r t : Nat, 1 ≤ np → (mc + 1) * np ≤ nc →
      r < Nat.choose (((nc : Int) - 1 - np * ((mc : Int) - 1)).toNat) np →
      t < np →
      (dreidel_all_states np nc mc)[r * np + t]? =
        some (dreidelDecode mc (unrank_weak_composition r (np + 1)
          (((nc : Int) - 1 - np * (mc : Int)).toNat)), t) ∧
      dreidelColIndex mc np (dreidelDecode mc (unrank_weak_composition r
        (np + 1) (((nc : Int) - 1 - np * (mc : Int)).toNat))) t
        = r * np + t) := by
  constructor
  · intro np total r t hnp hr ht
    constructor
    · unfold lcr_all_states
      rw [flatMap_range_getElem? _ np (fun i => by simp) _ r t hr ht]
      rw [List.getElem?_map, List.getElem?_range ht]
      rfl
    · unfold lcrColIndex
      rw [(unrank_weak_spec np total r hnp hr).1]
  · intro np nc mc r t hnp hnc hr ht
    obtain ⟨hb1, hb2⟩ := dreidel_bounds np nc mc
      (by have h2 : np * mc + np ≤ nc := by ring_nf at hnc ⊢; omega
          omega)
    set s := ((nc : Int) - 1 - np * (mc : Int)).toNat with hs
    have hbound : ((nc : Int) - 1 - np * ((mc : Int) - 1)).toNat = s + np := by
      rw [hb1, hb2]
    have hr2 : r < Nat.choose (s + np) np := by rw [hbound] at hr; exact hr
    have hr' : r < Nat.choose (s + (np + 1) - 1) ((np + 1) - 1) := by
      have he : s + (np + 1) - 1 = s + np := by omega
      rw [he]
      simpa using hr2
    obtain ⟨hrank, hlen, hsum⟩ := unrank_weak_spec (np + 1) s r (by omega) hr'
    have hne : unrank_weak_composition r (np + 1) s ≠ [] := by
      intro hcon
      rw [hcon] at hlen
      simp at hlen
    constructor
    · unfold dreidel_all_states
      rw [flatMap_range_getElem? _ np (fun i => by simp) _ r t hr ht]
      rw [List.getElem?_map, List.getElem?_range ht]
      rfl
    · unfold dreidelColIndex
      rw [dreidelEncode_decode mc _ hne, hrank]

/-- Witness for C5: the dice game at `num_players = 2`, `total_coins = 2`,
rank 1, turn 1, and the coin game at `num_players = 2`, `num_coins = 4`,
`min_coins = 0`, rank 0, turn 0. -/
theorem claim5_witness :
    1 ≤ 2 ∧ 1 < Nat.choose (2 + 2 - 1) (2 - 1) ∧
    (lcr_all_states 2 2)[1 * 2 + 1]? =
      some (unrank_weak_composition 1 2 2, 1) ∧
    (0 + 1) * 2 ≤ 4 ∧
    0 < Nat.choose (((4 : Int) - 1 - 2 * ((0 : Int) - 1)).toNat) 2 ∧
    (dreidel_all_states 2 4 0)[0 * 2 + 0]? =
      some (dreidelDecode 0 (unrank_weak_composition 0 (2 + 1)
        (((4 : Int) - 1 - 2 * (0 : Int)).toNat)), 0) :=
  ⟨by decide, by decide,
   (claim5_row_column_consistency.1 2 2 1 1 (by decide) (by decide)
     (by decide)).1,
   by decide, by decide,
   (claim5_row_column_consistency.2 2 4 0 0 0 (by decide) (by decide)
     (by decide) (by decide)).1⟩

/-! ### Level monotonicity of successors (C6) -/

theorem setLast_length (s : List Int) (v : Int) (h : s ≠ []) :
    (setLast s v).length = s.length := by
  have := List.length_pos.2 h
  unfold setLast
  rw [List.length_append, List.length_dropLast, List.length_singleton]
  omega

theorem removeLoop_length (lose : Int) : ∀ (fuel : Nat) (state : List Int)
    (turn : Int) (s' : List Int) (t' : Int),
    removeLoop lose fuel state turn = some (s', t') →
    s'.length ≤ state.length := by
  intro fuel
  induction fuel with
  | zero => intro state turn s' t' h; simp [removeLoop] at h
  | succ fuel ih =>
    intro state turn s' t' h
    simp only [removeLoop] at h
    split_ifs at h with h1 h2 h3
    all_goals
      first
      | (have h4 := setLast_length state (state.getLastD 0 + lose)
           (List.ne_nil_of_mem h1)
         have h5 := (List.eraseIdx_sublist
           (setLast state (state.getLastD 0 + lose))
           (List.indexOf lose (setLast state (state.getLastD 0 + lose)))).length_le
         have h6 := ih _ _ _ _ h
         omega)
      | (simp only [Option.some.injEq, Prod.mk.injEq] at h
         rw [← h.1])

theorem remove_losers_length (isEv : Bool) (mc : Int) (s0 : List Int)
    (t : Int) (s' : List Int) (t' : Int) (hne : s0 ≠ [])
    (h : remove_losers isEv mc s0 t = some (s', t')) :
    s'.length ≤ s0.length := by
  have hpos := List.length_pos.2 hne
  rcases hm : removeLoop (mc - 1) (s0.length + 1) s0 t with _ | ⟨s1, t1⟩ <;>
    simp only [remove_losers, hm] at h
  · split_ifs at h with h1
    simp only [Option.some.injEq, Prod.mk.injEq] at h
    rw [← h.1]
    simpa using hpos
  · split_ifs at h with h1 h2
    · simp only [Option.some.injEq, Prod.mk.injEq] at h
      rw [← h.1]
      simpa using hpos
    · simp only [Option.some.injEq, Prod.mk.injEq] at h
      have := removeLoop_length (mc - 1) (s0.length + 1) s0 t s1 t1 hm
      rw [← h.1]
      exact this

theorem gimelState_length (np : Nat) (state : List Int) (turn : Nat)
    (h : state ≠ []) : (gimelState np state turn).length = state.length := by
  have := List.length_pos.2 h
  unfold gimelState
  rw [List.length_append, List.length_map, List.length_dropLast,
    List.length_set, List.length_singleton]
  omega

theorem heiState_length (np : Nat) (h0 : Int) (state : List Int)
    (turn : Nat) (h : state ≠ []) :
    (heiState np h0 state turn).length = state.length := by
  have := List.length_pos.2 h
  simp only [heiState, setLast]
  split_ifs <;>
    simp only [List.length_append, List.length_map, List.length_dropLast,
      List.length_set, List.length_singleton] <;>
    omega

theorem shinState_length (state : List Int) (turn : Nat) (h : state ≠ []) :
    (shinState state turn).length = state.length := by
  have := List.length_pos.2 h
  unfold shinState setLast
  rw [List.length_append, List.length_dropLast, List.length_set,
    List.length_singleton]
  omega

theorem sum_set_int : ∀ (l : List Int) (i : Nat), i < l.length →
    ∀ v : Int, (l.set i v).sum = l.sum - l.getD i 0 + v := by
  intro l
  induction l with
  | nil => intro i h; simp at h
  | cons a l ih =>
    intro i h v
    cases i with
    | zero =>
      simp only [List.set_cons_zero, List.getD_cons_zero, List.sum_cons]
      ring
    | succ i =>
      simp only [List.set_cons_succ, List.getD_cons_succ, List.sum_cons]
      rw [ih i (by simpa using h) v]
      ring

theorem applyDie_bound (np turn : Nat) (hnp : 1 ≤ np) (ht : turn < np)
    (s : List Int) (d : Int) (hlen : s.length = np) :
    (applyDie np turn s d).sum ≤ s.sum ∧ (applyDie np turn s d).length = np := by
  unfold applyDie
  have hsum1 : (s.set turn (s.getD turn 0 - 1)).sum = s.sum - 1 := by
    rw [sum_set_int s turn (by omega) (s.getD turn 0 - 1)]
    ring
  by_cases hd : d < (np : Int)
  · simp only [if_pos hd]
    have hnpz : ((np : Int)) ≠ 0 := by
      simp only [ne_eq, Nat.cast_eq_zero]
      omega
    have hi1 : 0 ≤ ((turn : Int) + d) % (np : Int) := Int.emod_nonneg _ hnpz
    have hi2 : ((turn : Int) + d) % (np : Int) < (np : Int) :=
      Int.emod_lt_of_pos _ (by exact_mod_cast Nat.pos_of_ne_zero (by omega))
    have hilt : (((turn : Int) + d) % (np : Int)).toNat < np := by omega
    have hlen1 : (s.set turn (s.getD turn 0 - 1)).length = np := by
      rw [List.length_set]; exact hlen
    constructor
    · rw [sum_set_int _ _ (by omega) _, hsum1]
      ring_nf
      omega
    · rw [List.length_set, List.length_set]
      exact hlen
  · simp only [if_neg hd]
    constructor
    · omega
    · rw [List.length_set]; exact hlen

theorem foldl_applyDie (np turn : Nat) (hnp : 1 ≤ np) (ht : turn < np) :
    ∀ (roll : List Int) (s : List Int), s.length = np →
    (roll.foldl (applyDie np turn) s).sum ≤ s.sum ∧
    (roll.foldl (applyDie np turn) s).length = np := by
  intro roll
  induction roll with
  | nil => intro s hlen; exact ⟨le_refl _, hlen⟩
  | cons d roll ih =>
    intro s hlen
    rw [List.foldl_cons]
    have hd := applyDie_bound np turn hnp ht s d hlen
    have hrest := ih (applyDie np turn s d) hd.2
    exact ⟨le_trans hrest.1 hd.1, hrest.2⟩

/-- C6: successors never climb to a higher level.  For the coin game,
every successor that `next_states` returns through `remove_losers` has at
most as many slots (hence at most as many active players) as its origin;
for the dice game, the total of every successor state is at most the
total of the origin state. -/
theorem claim6_level_monotonicity :
    (∀ (isEv : Bool) (mc h0 : Int) (np : Nat) (state : List Int)
      (turn i : Nat) (s' : List Int) (t' : Int), state ≠ [] →
      (dreidel_next_states isEv mc np h0 state turn)[i]? =
        some (some (s', t')) →
      s'.length ≤ state.length) ∧
    (∀ (np maxRolls : Nat) (state : List Int) (turn i : Nat)
      (s' : List Int) (t' : Nat), 1 ≤ np → state.length = np → turn < np →
      (lcr_next_states np maxRolls state turn)[i]? = some (s', t') →
      s'.sum ≤ state.sum) := by
  constructor
  · intro isEv mc h0 np state turn i s' t' hne h
    have hpos := List.length_pos.2 hne
    match i with
    | 0 =>
      simp only [dreidel_next_states, List.getElem?_cons_zero,
        Option.some.injEq] at h
      exact remove_losers_length isEv mc state (turn : Int) s' t' hne h
    | 1 =>
      simp only [dreidel_next_states, List.getElem?_cons_succ,
        List.getElem?_cons_zero, Option.some.injEq] at h
      have hg := gimelState_length np state turn hne
      have hgne : gimelState np state turn ≠ [] := by
        apply List.length_pos.1
        omega
      have := remove_losers_length isEv mc (gimelState np state turn)
        (turn : Int) s' t' hgne h
      omega
    | 2 =>
      simp only [dreidel_next_states, List.getElem?_cons_succ,
        List.getElem?_cons_zero, Option.some.injEq] at h
      have hg := heiState_length np h0 state turn hne
      have hgne : heiState np h0 state turn ≠ [] := by
        apply List.length_pos.1
        omega
      have := remove_losers_length isEv mc (heiState np h0 state turn)
        (turn : Int) s' t' hgne h
      omega
    | 3 =>
      simp only [dreidel_next_states, List.getElem?_cons_succ,
        List.getElem?_cons_zero, Option.some.injEq] at h
      have hg := shinState_length state turn hne
      have hgne : shinState state turn ≠ [] := by
        apply List.length_pos.1
        omega
      have := remove_losers_length isEv mc (shinState state turn)
        (turn : Int) s' t' hgne h
      omega
    | n + 4 => simp [dreidel_next_states] at h
  · intro np maxRolls state turn i s' t' hnp hlen ht h
    unfold lcr_next_states at h
    rw [List.getElem?_map] at h
    cases hr : (rollSeqs np (min (state.getD turn 0).toNat maxRolls))[i]? with
    | none => rw [hr] at h; simp at h
    | some roll =>
      rw [hr] at h
      simp only [Option.map_some', Option.some.injEq, Prod.mk.injEq] at h
      rw [← h.1]
      exact (foldl_applyDie np turn hnp ht roll state hlen).1

/-- Witness for C6: the Shin spin from the 2-player state `(0, 0, 2)`
eliminates a player, and a 1-die roll from the 2-player dice state
`(1, 1)`. -/
theorem claim6_witness :
    (([0, 2] : List Int).length ≤ ([0, 0, 2] : List Int).length) ∧
    (([0, 2] : List Int).sum ≤ ([1, 1] : List Int).sum) :=
  ⟨claim6_level_monotonicity.1 true 0 1 2 [0, 0, 2] 0 3 [0, 2] 0
    (by decide) (by decide),
   claim6_level_monotonicity.2 2 3 [1, 1] 0 0 [0, 2] 1 (by decide)
    (by decide) (by decide) (by decide)⟩

/-! ### Probability conservation (C8) -/

theorem rollSeqs_ne_nil (np : Nat) : ∀ k, rollSeqs np k ≠ [] := by
  intro k
  induction k with
  | zero => simp [rollSeqs]
  | succ k ih =>
    simp only [rollSeqs, dieList, List.flatMap_cons, ne_eq,
      List.append_eq_nil, List.map_eq_nil_iff]
    intro hcon
    exact ih hcon.1

theorem counterProbSum_eq_one {α : Type} [DecidableEq α] (l : List α)
    (h : l ≠ []) : counterProbSum l = 1 := by
  unfold counterProbSum
  have hlen : ((l.length : ℚ)) ≠ 0 := by
    simp only [ne_eq, Nat.cast_eq_zero, List.length_eq_zero]
    exact h
  have hfun : (fun x => ((l.count x : ℚ)) / (l.length : ℚ)) =
      fun x => ((l.count x : ℚ)) * ((l.length : ℚ))⁻¹ := by
    funext x
    rw [div_eq_mul_inv]
  rw [hfun, List.sum_map_mul_right]
  have hcast : (l.dedup.map (fun x => ((l.count x : ℚ)))).sum =
      (((l.dedup.map (fun x => l.count x)).sum : Nat) : ℚ) := by
    rw [Nat.cast_list_sum, List.map_map]
    rfl
  rw [hcast, List.sum_map_count_dedup_eq_length]
  exact mul_inv_cancel₀ hlen

/-- C8: in the coin game every `(state, turn)` yields exactly four
successors, so the `0.25` weights given to them by `Dreidel.solve` sum to
one; in the dice game the merged `Counter` frequencies divided by
`counter.total()` always sum to exactly one (as rationals). -/
theorem claim8_probabilities_sum_to_one (isEv : Bool) (mc h0 : Int)
    (np maxRolls : Nat) (stateD stateL : List Int) (turnD turnL : Nat) :
    (dreidel_next_states isEv mc np h0 stateD turnD).length = 4 ∧
    ((dreidel_next_states isEv mc np h0 stateD turnD).map
      (fun _ => (1 / 4 : ℚ))).sum = 1 ∧
    counterProbSum (lcr_next_states np maxRolls stateL turnL) = 1 := by
  refine ⟨rfl, by norm_num [dreidel_next_states], ?_⟩
  apply counterProbSum_eq_one
  unfold lcr_next_states
  simp only [ne_eq, List.map_eq_nil_iff]
  exact rollSeqs_ne_nil np _

/-! ### Elimination-loop invariants (C9, C10)

The key facts about `remove_losers` on the states the solver feeds it:
with `lose = min_coins - 1 <= 0` and at least one player strictly above
the elimination threshold, the loop only ever deletes player slots (never
the pot, whose value stays strictly above `lose` throughout), so at least
one active player survives and the final modulus divisor is positive. -/

theorem setLast_concat (l : List Int) (a v : Int) :
    setLast (l ++ [a]) v = l ++ [v] := by
  unfold setLast
  rw [List.dropLast_concat]

theorem sum_map_pred : ∀ l : List Int,
    (l.map (· - 1)).sum = l.sum - l.length := by
  intro l
  induction l with
  | nil => simp
  | cons a l ih =>
    simp only [List.map_cons, List.sum_cons, List.length_cons, ih]
    push_cast
    ring

theorem count_set_le (a v : Int) : ∀ (l : List Int) (i : Nat),
    (l.set i v).count a ≤ l.count a + 1 := by
  intro l
  induction l with
  | nil => intro i; simp
  | cons b l ih =>
    intro i
    cases i with
    | zero =>
      simp only [List.set_cons_zero, List.count_cons]
      split_ifs <;> omega
    | succ i =>
      simp only [List.set_cons_succ, List.count_cons]
      have := ih i
      split_ifs <;> omega

theorem count_lt_of_exists_ne (a : Int) (l : List Int)
    (h : ∃ c ∈ l, c ≠ a) : l.count a < l.length := by
  rcases h with ⟨c, hc, hne⟩
  rcases Nat.lt_or_ge (l.count a) l.length with h1 | h1
  · exact h1
  · have h2 : l.count a = l.length :=
      le_antisymm (List.count_le_length a l) h1
    exact absurd (List.count_eq_length.1 h2 c hc).symm hne

theorem removeLoop_spec (lose : Int) (hl0 : lose ≤ 0) (hl1 : -1 ≤ lose) :
    ∀ (fuel : Nat) (body : List Int) (pot turn : Int),
    (∀ c ∈ body, lose ≤ c) → (∃ c ∈ body, lose < c) →
    1 ≤ pot + lose * (body.count lose) →
    body.length < fuel →
    ∃ body' pot' turn',
      removeLoop lose fuel (body ++ [pot]) turn =
        some (body' ++ [pot'], turn') ∧
      (∀ c ∈ body', lose < c) ∧ 1 ≤ body'.length ∧ 1 ≤ pot' ∧
      body'.length ≤ body.length ∧ body'.sum + pot' = body.sum + pot := by
  intro fuel
  induction fuel with
  | zero => intro body pot turn _ _ _ h; omega
  | succ fuel ih =>
    intro body pot turn hall hex hcnt hfuel
    have hmul : lose * ((body.count lose : Nat) : Int) ≤ 0 := by
      have h2 : lose * ((body.count lose : Nat) : Int) ≤
          0 * ((body.count lose : Nat) : Int) :=
        mul_le_mul_of_nonneg_right hl0 (Nat.cast_nonneg _)
      simpa using h2
    have hpot_pos : 0 < pot := by omega
    by_cases hmem : lose ∈ body
    · have hmemA : lose ∈ body ++ [pot] := List.mem_append.2 (Or.inl hmem)
      have hs1 : setLast (body ++ [pot])
          ((body ++ [pot]).getLastD 0 + lose) = body ++ [pot + lose] := by
        rw [List.getLastD_concat, setLast_concat]
      have hmem1 : lose ∈ body ++ [pot + lose] :=
        List.mem_append.2 (Or.inl hmem)
      have herase : (body ++ [pot + lose]).erase lose =
          body.erase lose ++ [pot + lose] := List.erase_append_left _ hmem
      have hcount_pos : 0 < body.count lose := List.count_pos_iff.2 hmem
      have hall' : ∀ c ∈ body.erase lose, lose ≤ c :=
        fun c hc => hall c (List.mem_of_mem_erase hc)
      have hex' : ∃ c ∈ body.erase lose, lose < c := by
        rcases hex with ⟨c, hc, hlt⟩
        exact ⟨c, (List.mem_erase_of_ne (by omega)).2 hc, hlt⟩
      have hcnt' : 1 ≤ (pot + lose) +
          lose * ((body.erase lose).count lose) := by
        rw [List.count_erase_self]
        have hcast : (((body.count lose - 1 : Nat)) : Int) =
            ((body.count lose : Nat) : Int) - 1 := by omega
        rw [hcast]
        have hr : lose * (((body.count lose : Nat) : Int) - 1) =
            lose * ((body.count lose : Nat) : Int) - lose := by ring
        rw [hr]
        omega
      have hlen' : (body.erase lose).length < fuel := by
        have h9 := List.length_erase_of_mem hmem
        have h10 : 0 < body.length := List.length_pos.2 (List.ne_nil_of_mem hmem)
        omega
      obtain ⟨body', pot', turn', heq, hall2, hlen2, hpot2, hle2, hsum2⟩ :=
        ih (body.erase lose) (pot + lose)
          (if ((body ++ [pot + lose]).indexOf lose : Int) ≤ turn
            then turn - 1 else turn) hall' hex' hcnt' hlen'
      refine ⟨body', pot', turn', ?_, hall2, hlen2, hpot2, ?_, ?_⟩
      · simp only [removeLoop]
        rw [if_pos hmemA, hs1, if_pos hmem1,
          List.eraseIdx_indexOf_eq_erase, herase]
        exact heq
      · rw [List.length_erase_of_mem hmem] at hle2
        omega
      · have hse : lose + (body.erase lose).sum = body.sum :=
          List.sum_erase hmem
        omega
    · have hnot : lose ∉ body ++ [pot] := by
        intro hc
        rcases List.mem_append.1 hc with h | h
        · exact hmem h
        · simp only [List.mem_singleton] at h
          omega
      refine ⟨body, pot, turn, ?_, ?_, ?_, ?_, le_refl _, rfl⟩
      · simp only [removeLoop]
        rw [if_neg hnot]
      · intro c hc
        have hne : c ≠ lose := fun he => hmem (he ▸ hc)
        have := hall c hc
        omega
      · rcases hex with ⟨c, hc, _⟩
        exact List.length_pos.2 (List.ne_nil_of_mem hc)
      · have hz : body.count lose = 0 := List.count_eq_zero.2 hmem
        rw [hz] at hcnt
        simpa using hcnt

theorem removeLoop_same_length (lose : Int) : ∀ (fuel : Nat)
    (state : List Int) (turn : Int) (s' : List Int) (t' : Int),
    removeLoop lose fuel state turn = some (s', t') →
    s'.length = state.length →
    s' = state ∧ t' = turn ∧ lose ∉ state := by
  intro fuel
  induction fuel with
  | zero => intro state turn s' t' h; simp [removeLoop] at h
  | succ fuel ih =>
    intro state turn s' t' h hlen
    simp only [removeLoop] at h
    split_ifs at h with h1 h2 h3
    all_goals
      first
      | (exfalso
         have hne : state ≠ [] := List.ne_nil_of_mem h1
         have h4 := setLast_length state (state.getLastD 0 + lose) hne
         have h5 := (List.indexOf_lt_length).2 h2
         have h6 := List.length_eraseIdx
           (setLast state (state.getLastD 0 + lose))
           (List.indexOf lose (setLast state (state.getLastD 0 + lose)))
         rw [if_pos h5] at h6
         have h7 := removeLoop_length lose fuel _ _ _ _ h
         have h8 := List.length_pos.2 hne
         omega)
      | (simp only [Option.some.injEq, Prod.mk.injEq] at h
         exact ⟨h.1.symm, h.2.symm, h1⟩)

/-! ### Shapes of the four spin outcomes on an enumerated state
`players ++ [pot]` (players all at least `min_coins`, pot at least 1) -/

theorem gimel_shape (np : Nat) (minCoins : Int) (players : List Int)
    (pot : Int) (turn : Nat) (hplen : players.length = np)
    (hturn : turn < np) (hpl : ∀ c ∈ players, minCoins ≤ c)
    (hpot : 1 ≤ pot) :
    ∃ b : List Int,
      gimelState np (players ++ [pot]) turn = b ++ [(np : Int)] ∧
      b.length = np ∧ (∀ c ∈ b, minCoins - 1 ≤ c) ∧
      (∃ c ∈ b, minCoins - 1 < c) ∧
      b.sum + (np : Int) = players.sum + pot := by
  have hturn' : turn < players.length := by omega
  have hptmem : players.getD turn 0 ∈ players := by
    rw [List.getD_eq_getElem _ _ hturn']
    exact List.getElem_mem _
  have hptlb := hpl _ hptmem
  refine ⟨(players.set turn (players.getD turn 0 + pot)).map (· - 1),
    ?_, ?_, ?_, ?_, ?_⟩
  · have hgetD := List.getD_append players [pot] 0 turn hturn'
    simp only [gimelState, List.getLastD_concat, hgetD, List.set_append,
      hturn', if_true, List.dropLast_concat]
  · rw [List.length_map, List.length_set]
    exact hplen
  · intro c hc
    rcases List.mem_map.1 hc with ⟨x, hx, rfl⟩
    rcases List.mem_or_eq_of_mem_set hx with h | h
    · have := hpl x h
      omega
    · subst h
      omega
  · refine ⟨players.getD turn 0 + pot - 1, ?_, by omega⟩
    apply List.mem_map.2
    refine ⟨players.getD turn 0 + pot, ?_, rfl⟩
    have h1 : turn < (players.set turn (players.getD turn 0 + pot)).length := by
      rw [List.length_set]
      exact hturn'
    have h3 := List.getElem_mem h1
    rw [List.getElem_set_self h1] at h3
    exact h3
  · rw [sum_map_pred, sum_set_int players turn hturn' _, List.length_set,
      hplen]
    ring

theorem hei_shape (np : Nat) (minCoins halfOdd : Int) (players : List Int)
    (pot : Int) (turn : Nat) (hplen : players.length = np)
    (hturn : turn < np) (hpl : ∀ c ∈ players, minCoins ≤ c)
    (hpot : 1 ≤ pot) (hh0 : 0 ≤ halfOdd) (hh1 : halfOdd ≤ 1) :
    ∃ (b : List Int) (p : Int),
      heiState np halfOdd (players ++ [pot]) turn = b ++ [p] ∧
      b.length = np ∧ (∀ c ∈ b, minCoins - 1 ≤ c) ∧
      (∃ c ∈ b, minCoins - 1 < c) ∧ 1 ≤ p ∧
      (p = (np : Int) ∨ ∀ c ∈ b, minCoins ≤ c) ∧
      b.sum + p = players.sum + pot := by
  have hturn' : turn < players.length := by omega
  have hptmem : players.getD turn 0 ∈ players := by
    rw [List.getD_eq_getElem _ _ hturn']
    exact List.getElem_mem _
  have hptlb := hpl _ hptmem
  have hw0 : 0 ≤ (pot + halfOdd) / 2 := by omega
  have hw2 : (pot + halfOdd) / 2 ≤ pot := by omega
  have hcomp : heiState np halfOdd (players ++ [pot]) turn =
      if pot - (pot + halfOdd) / 2 = 0
      then (players.set turn
          (players.getD turn 0 + (pot + halfOdd) / 2)).map (· - 1) ++
        [(np : Int)]
      else players.set turn (players.getD turn 0 + (pot + halfOdd) / 2) ++
        [pot - (pot + halfOdd) / 2] := by
    have hgetD := List.getD_append players [pot] 0 turn hturn'
    simp only [heiState, List.getLastD_concat, hgetD, List.set_append,
      hturn', if_true, setLast_concat, List.getLastD_concat,
      List.dropLast_concat]
  have hturnset : turn <
      (players.set turn (players.getD turn 0 + (pot + halfOdd) / 2)).length := by
    rw [List.length_set]
    exact hturn'
  by_cases hz : pot - (pot + halfOdd) / 2 = 0
  · refine ⟨(players.set turn
        (players.getD turn 0 + (pot + halfOdd) / 2)).map (· - 1),
      (np : Int), ?_, ?_, ?_, ?_, ?_, Or.inl rfl, ?_⟩
    · rw [hcomp, if_pos hz]
    · rw [List.length_map, List.length_set]
      exact hplen
    · intro c hc
      rcases List.mem_map.1 hc with ⟨x, hx, rfl⟩
      rcases List.mem_or_eq_of_mem_set hx with h | h
      · have := hpl x h
        omega
      · subst h
        omega
    · refine ⟨players.getD turn 0 + (pot + halfOdd) / 2 - 1, ?_, by omega⟩
      apply List.mem_map.2
      refine ⟨players.getD turn 0 + (pot + halfOdd) / 2, ?_, rfl⟩
      have h3 := List.getElem_mem hturnset
      rw [List.getElem_set_self hturnset] at h3
      exact h3
    · have : (1 : Int) ≤ np := by
        have : 1 ≤ np := by omega
        exact_mod_cast this
      omega
    · rw [sum_map_pred, sum_set_int players turn hturn' _, List.length_set,
        hplen]
      have hwin : (pot + halfOdd) / 2 = pot := by omega
      rw [hwin]
      ring
  · refine ⟨players.set turn (players.getD turn 0 + (pot + halfOdd) / 2),
      pot - (pot + halfOdd) / 2, ?_, ?_, ?_, ?_, by omega, Or.inr ?_, ?_⟩
    · rw [hcomp, if_neg hz]
    · rw [List.length_set]
      exact hplen
    · intro c hc
      rcases List.mem_or_eq_of_mem_set hc with h | h
      · have := hpl c h
        omega
      · subst h
        omega
    · refine ⟨players.getD turn 0 + (pot + halfOdd) / 2, ?_, by omega⟩
      have h3 := List.getElem_mem hturnset
      rw [List.getElem_set_self hturnset] at h3
      exact h3
    · intro c hc
      rcases List.mem_or_eq_of_mem_set hc with h | h
      · exact hpl c h
      · subst h
        omega
    · rw [sum_set_int players turn hturn' _]
      ring

theorem shin_shape (np : Nat) (minCoins : Int) (players : List Int)
    (pot : Int) (turn : Nat) (hplen : players.length = np)
    (hturn : turn < np) (hpl : ∀ c ∈ players, minCoins ≤ c) :
    ∃ b : List Int,
      shinState (players ++ [pot]) turn = b ++ [pot + 1] ∧
      b.length = np ∧ (∀ c ∈ b, minCoins - 1 ≤ c) ∧
      b.count (minCoins - 1) ≤ 1 ∧
      (2 ≤ np → ∃ c ∈ b, minCoins - 1 < c) ∧
      b.sum + (pot + 1) = players.sum + pot := by
  have hturn' : turn < players.length := by omega
  have hptmem : players.getD turn 0 ∈ players := by
    rw [List.getD_eq_getElem _ _ hturn']
    exact List.getElem_mem _
  have hptlb := hpl _ hptmem
  refine ⟨players.set turn (players.getD turn 0 - 1), ?_, ?_, ?_, ?_, ?_, ?_⟩
  · have hgetD := List.getD_append players [pot] 0 turn hturn'
    simp only [shinState, List.getLastD_concat, hgetD, List.set_append,
      hturn', if_true, setLast_concat, List.getLastD_concat]
  · rw [List.length_set]
    exact hplen
  · intro c hc
    rcases List.mem_or_eq_of_mem_set hc with h | h
    · have := hpl c h
      omega
    · subst h
      omega
  · have h1 := count_set_le (minCoins - 1) (players.getD turn 0 - 1)
      players turn
    have h2 : players.count (minCoins - 1) = 0 := by
      apply List.count_eq_zero.2
      intro hcon
      have := hpl _ hcon
      omega
    omega
  · intro hnp2
    have hj : ∃ j, j < players.length ∧ j ≠ turn := by
      rcases Nat.eq_zero_or_pos turn with h | h
      · exact ⟨1, by omega, by omega⟩
      · exact ⟨0, by omega, by omega⟩
    obtain ⟨j, hjlen, hjne⟩ := hj
    have hjlen' : j < (players.set turn (players.getD turn 0 - 1)).length := by
      rw [List.length_set]
      exact hjlen
    refine ⟨(players.set turn (players.getD turn 0 - 1))[j],
      List.getElem_mem hjlen', ?_⟩
    rw [List.getElem_set_ne (by omega) hjlen']
    have := hpl players[j] (List.getElem_mem hjlen)
    omega
  · rw [sum_set_int players turn hturn' _]
    ring

theorem remove_losers_spec (isEv : Bool) (minCoins : Int)
    (hmc0 : 0 ≤ minCoins) (hmc1 : minCoins ≤ 1)
    (body : List Int) (pot : Int) (turn : Int)
    (hall : ∀ c ∈ body, minCoins - 1 ≤ c)
    (hex : ∃ c ∈ body, minCoins - 1 < c)
    (hcnt : 1 ≤ pot + (minCoins - 1) * (body.count (minCoins - 1))) :
    ∃ r, remove_losers isEv minCoins (body ++ [pot]) turn = some r ∧
      (r = ([0], 0) ∨
        ∃ body' pot' t', r = (body' ++ [pot'], t') ∧
          (∀ c ∈ body', minCoins ≤ c) ∧ 1 ≤ body'.length ∧ 1 ≤ pot' ∧
          body'.length ≤ body.length ∧
          body'.sum + pot' = body.sum + pot ∧
          0 ≤ t' ∧ t' < (body'.length : Int)) := by
  by_cases hsc : (body ++ [pot]).head? = some (minCoins - 1) ∧ isEv = false
  · refine ⟨([0], 0), ?_, Or.inl rfl⟩
    simp only [remove_losers]
    rw [if_pos hsc]
  · obtain ⟨body', pot', turn', heq, hall2, hlen2, hpot2, hle2, hsum2⟩ :=
      removeLoop_spec (minCoins - 1) (by omega) (by omega)
        ((body ++ [pot]).length + 1) body pot turn hall hex hcnt
        (by simp only [List.length_append, List.length_singleton]; omega)
    have hD : (((body' ++ [pot']).length : Nat) : Int) - 1 =
        ((body'.length : Nat) : Int) := by
      simp only [List.length_append, List.length_singleton]
      push_cast
      ring
    have hDne : ¬((((body' ++ [pot']).length : Nat) : Int) - 1 = 0) := by
      rw [hD]
      have : (1 : Int) ≤ body'.length := by exact_mod_cast hlen2
      omega
    have hDpos : 0 < (((body' ++ [pot']).length : Nat) : Int) - 1 := by
      rw [hD]
      have : (1 : Int) ≤ body'.length := by exact_mod_cast hlen2
      omega
    refine ⟨(body' ++ [pot'],
      (turn' + 1) % ((((body' ++ [pot']).length : Nat) : Int) - 1)), ?_,
      Or.inr ⟨body', pot',
        (turn' + 1) % ((((body' ++ [pot']).length : Nat) : Int) - 1),
        rfl, ?_, hlen2, hpot2, hle2, hsum2, ?_, ?_⟩⟩
    · simp only [remove_losers, hsc, if_false, heq]
      rw [if_neg hDne]
    · intro c hc
      have := hall2 c hc
      omega
    · exact Int.emod_nonneg _ hDne
    · have h5 := Int.emod_lt_of_pos (turn' + 1) hDpos
      exact lt_of_lt_of_eq h5 hD

theorem remove_losers_same_length (isEv : Bool) (minCoins : Int)
    (s0 : List Int) (turn : Int) (s' : List Int) (t' : Int)
    (hlen0 : 2 ≤ s0.length)
    (h : remove_losers isEv minCoins s0 turn = some (s', t'))
    (hsame : s'.length = s0.length) :
    s' = s0 ∧ (minCoins - 1) ∉ s0 ∧
    t' = (turn + 1) % ((s0.length : Int) - 1) ∧
    0 ≤ t' ∧ t' < (s0.length : Int) - 1 := by
  have hDne : ¬(((s0.length : Nat) : Int) - 1 = 0) := by
    have : (2 : Int) ≤ s0.length := by exact_mod_cast hlen0
    omega
  have hDpos : 0 < ((s0.length : Nat) : Int) - 1 := by
    have : (2 : Int) ≤ s0.length := by exact_mod_cast hlen0
    omega
  rcases hm : removeLoop (minCoins - 1) (s0.length + 1) s0 turn
    with _ | ⟨s1, t1⟩ <;> simp only [remove_losers, hm] at h
  · split_ifs at h with h1
    simp only [Option.some.injEq, Prod.mk.injEq] at h
    rw [← h.1] at hsame
    simp only [List.length_singleton] at hsame
    omega
  · split_ifs at h with h1 h2
    · simp only [Option.some.injEq, Prod.mk.injEq] at h
      rw [← h.1] at hsame
      simp only [List.length_singleton] at hsame
      omega
    · simp only [Option.some.injEq, Prod.mk.injEq] at h
      obtain ⟨h1eq, h2eq⟩ := h
      have hs1len : s1.length = s0.length := by
        rw [h1eq]
        exact hsame
      obtain ⟨he1, he2, he3⟩ :=
        removeLoop_same_length (minCoins - 1) (s0.length + 1) s0 turn
          s1 t1 hm hs1len
      refine ⟨?_, he3, ?_, ?_, ?_⟩
      · rw [← h1eq, he1]
      · rw [← h2eq, he2, hs1len]
      · rw [← h2eq]
        apply Int.emod_nonneg
        rw [hs1len]
        exact hDne
      · rw [← h2eq]
        have h5 := Int.emod_lt_of_pos (t1 + 1)
          (show 0 < ((s1.length : Nat) : Int) - 1 by rw [hs1len]; exact hDpos)
        calc (t1 + 1) % (((s1.length : Nat) : Int) - 1) <
            ((s1.length : Nat) : Int) - 1 := h5
          _ = ((s0.length : Nat) : Int) - 1 := by rw [hs1len]

theorem spin_result_good (minCoins : Int) (body : List Int) (pot : Int)
    (r : List Int × Int)
    (h : r = ([0], 0) ∨
      ∃ body' pot' t', r = (body' ++ [pot'], t') ∧
        (∀ c ∈ body', minCoins ≤ c) ∧ 1 ≤ body'.length ∧ 1 ≤ pot' ∧
        body'.length ≤ body.length ∧ body'.sum + pot' = body.sum + pot ∧
        0 ≤ t' ∧ t' < (body'.length : Int)) :
    ∀ s' t', r = (s', t') →
      s' = [0] ∨ (2 ≤ s'.length ∧ 0 ≤ t' ∧ t' < (s'.length : Int) - 1) := by
  intro s' t' hr
  subst hr
  rcases h with h | ⟨b', p', tt, heq, _, hlen, _, _, _, ht0, ht1⟩
  · left
    simp only [Prod.mk.injEq] at h
    exact h.1
  · simp only [Prod.mk.injEq] at heq
    obtain ⟨hs, ht⟩ := heq
    right
    rw [hs, ht]
    refine ⟨?_, ht0, ?_⟩
    · simp only [List.length_append, List.length_singleton]
      omega
    · simp only [List.length_append, List.length_singleton]
      push_cast
      omega

/-- C9 (counterexample): the claim as stated quantifies over every state
enumerated by `all_states` under the sole precondition
`num_coins >= (min_coins + 1) * num_players`, which admits
`num_players = 1`.  With one player, `min_coins = 0`, `num_coins = 1`, the
enumerated state is `(0, 1)`, and the Shin spin reduces it to `(-1, 2)`;
`remove_losers` then deletes the lone player and evaluates
`(turn + 1) % (len(state) - 1)` with divisor 0, a `ZeroDivisionError`
(modelled as `none`). -/
theorem claim9_counterexample :
    ([0, 1], 0) ∈ dreidel_all_states 1 1 0 ∧
    shinState [0, 1] 0 = [-1, 2] ∧
    remove_losers true 0 (shinState [0, 1] 0) 0 = none ∧
    (dreidel_next_states true 0 1 1 [0, 1] 0)[3]? = some none := by
  decide

/-- C9 (amended): additionally assuming `num_players >= 2` (as in every
configuration the driver solves) and the documented elimination rules
`min_coins` in `{0, 1}` and `half_odd` in `{0, 1}`: every spin outcome of
an enumerated state passes through `remove_losers` without error, at
least one active player always survives (so the modulus divisor
`len(state) - 1` is positive — except for the win-probability shortcut
result `((0,), 0)`, which never reaches the modulus), and every returned
turn `t` satisfies `0 <= t < active_player_count`. -/
theorem claim9_elimination_safety (isEv : Bool) (minCoins halfOdd : Int)
    (np : Nat) (players : List Int) (pot : Int) (turn : Nat)
    (hmc0 : 0 ≤ minCoins) (hmc1 : minCoins ≤ 1)
    (hh0 : 0 ≤ halfOdd) (hh1 : halfOdd ≤ 1)
    (hnp : 2 ≤ np) (hplen : players.length = np) (hturn : turn < np)
    (hpl : ∀ c ∈ players, minCoins ≤ c) (hpot : 1 ≤ pot) :
    (∀ (i : Nat) (o : Option (List Int × Int)),
      (dreidel_next_states isEv minCoins np halfOdd
        (players ++ [pot]) turn)[i]? = some o → o ≠ none) ∧
    (∀ (i : Nat) (s' : List Int) (t' : Int),
      (dreidel_next_states isEv minCoins np halfOdd
        (players ++ [pot]) turn)[i]? = some (some (s', t')) →
      s' = [0] ∨ (2 ≤ s'.length ∧ 0 ≤ t' ∧ t' < (s'.length : Int) - 1)) := by
  have hcast_neg : ∀ cnt : Nat, -((cnt : Nat) : Int) ≤
      (minCoins - 1) * ((cnt : Nat) : Int) := by
    intro cnt
    have h3 := mul_le_mul_of_nonneg_right
      (show (-1 : Int) ≤ minCoins - 1 by omega) (Nat.cast_nonneg cnt)
    simpa using h3
  -- Nun
  have h0len : 0 < players.length := by omega
  have hexNun : ∃ c ∈ players, minCoins - 1 < c :=
    ⟨players[0], List.getElem_mem h0len, by
      have := hpl players[0] (List.getElem_mem h0len)
      omega⟩
  have hcntNun : players.count (minCoins - 1) = 0 :=
    List.count_eq_zero.2 (fun hc => by have := hpl _ hc; omega)
  obtain ⟨rN, hrN, hgoodN⟩ :=
    remove_losers_spec isEv minCoins hmc0 hmc1 players pot (turn : Int)
      (fun c hc => by have := hpl c hc; omega) hexNun
      (by rw [hcntNun]; simpa using hpot)
  -- Gimel
  obtain ⟨bG, hGeq, hGlen, hGall, hGex, hGsum⟩ :=
    gimel_shape np minCoins players pot turn hplen hturn hpl hpot
  have hGcntlt : bG.count (minCoins - 1) < np := by
    rw [← hGlen]
    exact count_lt_of_exists_ne _ _
      (by rcases hGex with ⟨c, hc, hlt⟩; exact ⟨c, hc, by omega⟩)
  have hGcnt : 1 ≤ (np : Int) +
      (minCoins - 1) * (bG.count (minCoins - 1)) := by
    have h2 := hcast_neg (bG.count (minCoins - 1))
    have h4 : ((bG.count (minCoins - 1) : Nat) : Int) < (np : Int) := by
      exact_mod_cast hGcntlt
    omega
  obtain ⟨rG, hrG, hgoodG⟩ := by
    have h := remove_losers_spec isEv minCoins hmc0 hmc1 bG (np : Int)
      (turn : Int) hGall hGex hGcnt
    rw [← hGeq] at h
    exact h
  -- Hei
  obtain ⟨bH, pH, hHeq, hHlen, hHall, hHex, hHp1, hHdisj, hHsum⟩ :=
    hei_shape np minCoins halfOdd players pot turn hplen hturn hpl hpot
      hh0 hh1
  have hHcnt : 1 ≤ pH + (minCoins - 1) * (bH.count (minCoins - 1)) := by
    rcases hHdisj with hpp | hall'
    · have hHcntlt : bH.count (minCoins - 1) < np := by
        rw [← hHlen]
        exact count_lt_of_exists_ne _ _
          (by rcases hHex with ⟨c, hc, hlt⟩; exact ⟨c, hc, by omega⟩)
      have h2 := hcast_neg (bH.count (minCoins - 1))
      have h4 : ((bH.count (minCoins - 1) : Nat) : Int) < (np : Int) := by
        exact_mod_cast hHcntlt
      rw [hpp]
      omega
    · have hz : bH.count (minCoins - 1) = 0 :=
        List.count_eq_zero.2 (fun hc => by have := hall' _ hc; omega)
      rw [hz]
      simpa using hHp1
  obtain ⟨rH, hrH, hgoodH⟩ := by
    have h := remove_losers_spec isEv minCoins hmc0 hmc1 bH pH
      (turn : Int) hHall hHex hHcnt
    rw [← hHeq] at h
    exact h
  -- Shin
  obtain ⟨bS, hSeq, hSlen, hSall, hScnt1, hSex, hSsum⟩ :=
    shin_shape np minCoins players pot turn hplen hturn hpl
  have hScnt : 1 ≤ (pot + 1) +
      (minCoins - 1) * (bS.count (minCoins - 1)) := by
    have h2 := hcast_neg (bS.count (minCoins - 1))
    have h4 : ((bS.count (minCoins - 1) : Nat) : Int) ≤ 1 := by
      exact_mod_cast hScnt1
    omega
  obtain ⟨rS, hrS, hgoodS⟩ := by
    have h := remove_losers_spec isEv minCoins hmc0 hmc1 bS (pot + 1)
      (turn : Int) hSall (hSex hnp) hScnt
    rw [← hSeq] at h
    exact h
  constructor
  · intro i o hio
    match i with
    | 0 =>
      simp only [dreidel_next_states, List.getElem?_cons_zero,
        Option.some.injEq] at hio
      rw [← hio, hrN]
      simp
    | 1 =>
      simp only [dreidel_next_states, List.getElem?_cons_succ,
        List.getElem?_cons_zero, Option.some.injEq] at hio
      rw [← hio, hrG]
      simp
    | 2 =>
      simp only [dreidel_next_states, List.getElem?_cons_succ,
        List.getElem?_cons_zero, Option.some.injEq] at hio
      rw [← hio, hrH]
      simp
    | 3 =>
      simp only [dreidel_next_states, List.getElem?_cons_succ,
        List.getElem?_cons_zero, Option.some.injEq] at hio
      rw [← hio, hrS]
      simp
    | n + 4 => simp [dreidel_next_states] at hio
  · intro i s' t' hio
    match i with
    | 0 =>
      simp only [dreidel_next_states, List.getElem?_cons_zero,
        Option.some.injEq] at hio
      rw [hrN] at hio
      exact spin_result_good minCoins players pot rN hgoodN s' t'
        (by simpa using hio)
    | 1 =>
      simp only [dreidel_next_states, List.getElem?_cons_succ,
        List.getElem?_cons_zero, Option.some.injEq] at hio
      rw [hrG] at hio
      exact spin_result_good minCoins bG (np : Int) rG hgoodG s' t'
        (by simpa using hio)
    | 2 =>
      simp only [dreidel_next_states, List.getElem?_cons_succ,
        List.getElem?_cons_zero, Option.some.injEq] at hio
      rw [hrH] at hio
      exact spin_result_good minCoins bH pH rH hgoodH s' t'
        (by simpa using hio)
    | 3 =>
      simp only [dreidel_next_states, List.getElem?_cons_succ,
        List.getElem?_cons_zero, Option.some.injEq] at hio
      rw [hrS] at hio
      exact spin_result_good minCoins bS (pot + 1) rS hgoodS s' t'
        (by simpa using hio)
    | n + 4 => simp [dreidel_next_states] at hio

/-- Witness for C9 at the 2-player state `(0, 0, 2)` with `min_coins = 0`,
`half_odd = 1`, whose Shin spin eliminates player 0 and renumbers the turn
to 0 of the surviving single-player-plus-pot state `(0, 2)`. -/
theorem claim9_witness :
    (some ([0, 2], 0) : Option (List Int × Int)) ≠ none ∧
    (([0, 2] : List Int) = [0] ∨
      (2 ≤ ([0, 2] : List Int).length ∧ (0 : Int) ≤ 0 ∧
        (0 : Int) < (([0, 2] : List Int).length : Int) - 1)) :=
  ⟨(claim9_elimination_safety true 0 1 2 [0, 0] 2 0 (by decide) (by decide)
      (by decide) (by decide) (by decide) (by decide) (by decide)
      (by decide) (by decide)).1 3 (some ([0, 2], 0)) (by decide),
   (claim9_elimination_safety true 0 1 2 [0, 0] 2 0 (by decide) (by decide)
      (by decide) (by decide) (by decide) (by decide) (by decide)
      (by decide) (by decide)).2 3 [0, 2] 0 (by decide)⟩

/-! ### Reverse round-trip of the indexer (needed to show that every
same-level successor is itself enumerated, C10) -/

theorem sorted_length_le : ∀ (T : List Nat) (m : Nat),
    T.Sorted (· < ·) → (∀ x ∈ T, x < m) → T.length ≤ m := by
  intro T
  induction T using List.reverseRecOn with
  | nil => intro m _ _; simp
  | append_singleton U q ih =>
    intro m hsort hb
    have hU : U.Sorted (· < ·) := (List.pairwise_append.1 hsort).1
    have hUq : ∀ x ∈ U, x < q := fun x hx =>
      (List.pairwise_append.1 hsort).2.2 x hx q (by simp)
    have h1 := ih q hU hUq
    have h2 : q < m := hb q (by simp)
    simp only [List.length_append, List.length_singleton]
    omega

theorem rank_subset_concat (T : List Nat) (m : Nat) :
    rank_subset (T ++ [m]) = rank_subset T + Nat.choose m (T.length + 1) := by
  rw [rank_subset, rank_subset, rankFrom_append]
  simp

theorem rank_subset_lt : ∀ (S : List Nat) (n : Nat), S.Sorted (· < ·) →
    (∀ x ∈ S, x < n) → rank_subset S < Nat.choose n S.length := by
  intro S
  induction S using List.reverseRecOn with
  | nil => intro n _ _; simp [rank_subset, rankFrom]
  | append_singleton T m ih =>
    intro n hsort hbound
    have hTsort : T.Sorted (· < ·) := (List.pairwise_append.1 hsort).1
    have hTm : ∀ x ∈ T, x < m := fun x hx =>
      (List.pairwise_append.1 hsort).2.2 x hx m (by simp)
    have h1 := ih m hTsort hTm
    have hmn : m < n := hbound m (by simp)
    rw [rank_subset_concat]
    have h2 : Nat.choose (m + 1) (T.length + 1) =
        Nat.choose m T.length + Nat.choose m (T.length + 1) := by
      simpa using Nat.choose_succ_succ m T.length
    have h3 : Nat.choose (m + 1) (T.length + 1) ≤
        Nat.choose n (T.length + 1) :=
      Nat.choose_le_choose _ (by omega)
    simp only [List.length_append, List.length_singleton]
    omega

theorem unrank_rank_subset : ∀ (S : List Nat) (n : Nat),
    S.Sorted (· < ·) → (∀ x ∈ S, x < n) →
    unrank_subset (rank_subset S) n S.length = S := by
  intro S
  induction S using List.reverseRecOn with
  | nil => intro n _ _; rfl
  | append_singleton T m ih =>
    intro n hsort hbound
    have hTsort : T.Sorted (· < ·) := (List.pairwise_append.1 hsort).1
    have hTm : ∀ x ∈ T, x < m := fun x hx =>
      (List.pairwise_append.1 hsort).2.2 x hx m (by simp)
    have hrT := rank_subset_lt T m hTsort hTm
    have hlenTm : T.length ≤ m := sorted_length_le T m hTsort hTm
    have hmn : m < n := hbound m (by simp)
    have hr2 := rank_subset_concat T m
    have hchoose : Nat.choose (m + 1) (T.length + 1) =
        Nat.choose m T.length + Nat.choose m (T.length + 1) := by
      simpa using Nat.choose_succ_succ m T.length
    have hub : rank_subset (T ++ [m]) <
        Nat.choose (n + 1) (T.length + 1) := by
      have h3 : Nat.choose (m + 1) (T.length + 1) ≤
          Nat.choose (n + 1) (T.length + 1) :=
        Nat.choose_le_choose _ (by omega)
      omega
    have hspec := searchLoop_spec (rank_subset (T ++ [m])) (T.length + 1)
      (n - T.length + 1) T.length n (by omega) (by omega)
      (by simp [Nat.choose_eq_zero_of_lt]) hub
    set m0 := searchLoop (rank_subset (T ++ [m])) (T.length + 1)
      (n - T.length + 1) T.length n with hm0def
    obtain ⟨hs1, hs2, hs3, hs4⟩ := hspec
    have hm0 : m0 = m := by
      by_contra hne
      rcases Nat.lt_or_ge m0 m with hlt | hge
      · have h5 : Nat.choose (m0 + 1) (T.length + 1) ≤
            Nat.choose m (T.length + 1) :=
          Nat.choose_le_choose _ (by omega)
        omega
      · have hgt : m < m0 := by omega
        have h5 : Nat.choose (m + 1) (T.length + 1) ≤
            Nat.choose m0 (T.length + 1) :=
          Nat.choose_le_choose _ (by omega)
        omega
    have hlenc : (T ++ [m]).length = T.length + 1 := by simp
    rw [hlenc]
    simp only [unrank_subset]
    rw [← hm0def, hm0]
    have hsub : rank_subset (T ++ [m]) - Nat.choose m (T.length + 1) =
        rank_subset T := by omega
    rw [hsub, ih m hTsort hTm]

theorem cumsumFrom_length : ∀ (l : List Nat) (a : Nat),
    (cumsumFrom a l).length = l.length := by
  intro l
  induction l with
  | nil => intro a; rfl
  | cons c l ih => intro a; simp [cumsumFrom, ih]

theorem cumsumFrom_chain : ∀ (l : List Nat) (a : Nat),
    (∀ c ∈ l, 1 ≤ c) → List.Chain (· < ·) a (cumsumFrom a l) := by
  intro l
  induction l with
  | nil => intro a _; exact List.Chain.nil
  | cons c l ih =>
    intro a hpos
    rw [cumsumFrom]
    apply List.Chain.cons
    · have := hpos c (by simp)
      omega
    · exact ih (a + c) (fun d hd => hpos d (by simp [hd]))

theorem cumsumFrom_le : ∀ (l : List Nat) (a : Nat) (y : Nat),
    y ∈ cumsumFrom a l → y ≤ a + l.sum := by
  intro l
  induction l with
  | nil => intro a y h; simp [cumsumFrom] at h
  | cons c l ih =>
    intro a y h
    rw [cumsumFrom] at h
    rcases List.mem_cons.1 h with h | h
    · simp only [List.sum_cons]
      omega
    · have := ih (a + c) y h
      simp only [List.sum_cons]
      omega

theorem map_pred_sorted (l : List Nat) (h : l.Sorted (· < ·))
    (h1 : ∀ y ∈ l, 1 ≤ y) : (l.map (· - 1)).Sorted (· < ·) := by
  induction l with
  | nil => simp
  | cons a l ih =>
    simp only [List.map_cons]
    rw [List.sorted_cons] at h
    rw [List.sorted_cons]
    constructor
    · intro b hb
      rcases List.mem_map.1 hb with ⟨y, hy, rfl⟩
      have h2 := h.1 y hy
      have h3 := h1 y (by simp [hy])
      have h4 := h1 a (by simp)
      omega
    · exact ih h.2 (fun y hy => h1 y (by simp [hy]))

theorem diffDec_cumsum : ∀ (l : List Nat) (a : Nat),
    diffDec a ((cumsumFrom a (l.map (· + 1))).map (· - 1)) = l := by
  intro l
  induction l with
  | nil => intro a; rfl
  | cons c rest ih =>
    intro a
    simp only [List.map_cons, cumsumFrom, diffDec]
    have h1 : a + (c + 1) - 1 - a = c := by omega
    have h2 : a + (c + 1) - 1 + 1 = a + (c + 1) := by omega
    rw [h1, h2]
    rw [ih (a + (c + 1))]

theorem accAfter_cumsum : ∀ (l : List Nat) (a : Nat),
    accAfter a ((cumsumFrom a (l.map (· + 1))).map (· - 1)) =
      a + l.sum + l.length := by
  intro l
  induction l with
  | nil => intro a; simp [cumsumFrom, accAfter]
  | cons c rest ih =>
    intro a
    simp only [List.map_cons, cumsumFrom, accAfter, List.sum_cons,
      List.length_cons]
    have h2 : a + (c + 1) - 1 + 1 = a + (c + 1) := by omega
    rw [h2, ih (a + (c + 1))]
    ring

theorem rank_weak_reverse (n s : Nat) (x : List Nat) (hn : 1 ≤ n)
    (hlen : x.length = n) (hsum : x.sum = s) :
    rank_weak_composition x < Nat.choose (s + n - 1) (n - 1) ∧
    unrank_weak_composition (rank_weak_composition x) n s = x := by
  have hxne : x ≠ [] := by
    intro hcon
    rw [hcon] at hlen
    simp at hlen
    omega
  set g := x.getLast hxne with hg
  have hxdec : x.dropLast ++ [g] = x := List.dropLast_append_getLast hxne
  have hdsum : x.dropLast.sum + g = s := by
    rw [← hsum, ← hxdec]
    simp
  have hdlen : x.dropLast.length = n - 1 := by
    rw [List.length_dropLast, hlen]
  set S := (cumsumFrom 0 (x.dropLast.map (· + 1))).map (· - 1) with hS
  have hSlen : S.length = n - 1 := by
    rw [hS, List.length_map, cumsumFrom_length, List.length_map, hdlen]
  have hchain := cumsumFrom_chain (x.dropLast.map (· + 1)) 0
    (by intro c hc
        rcases List.mem_map.1 hc with ⟨y, _, rfl⟩
        omega)
  have hpair : List.Pairwise (· < ·)
      (0 :: cumsumFrom 0 (x.dropLast.map (· + 1))) :=
    List.chain_iff_pairwise.1 hchain
  have hcpos : ∀ y ∈ cumsumFrom 0 (x.dropLast.map (· + 1)), 1 ≤ y := by
    intro y hy
    have := List.rel_of_pairwise_cons hpair hy
    omega
  have hcsorted : (cumsumFrom 0 (x.dropLast.map (· + 1))).Sorted (· < ·) :=
    (List.pairwise_cons.1 hpair).2
  have hSsorted : S.Sorted (· < ·) :=
    map_pred_sorted _ hcsorted hcpos
  have hSbound : ∀ y ∈ S, y < s + n - 1 := by
    intro y hy
    rcases List.mem_map.1 hy with ⟨z, hz, rfl⟩
    have h1 := cumsumFrom_le (x.dropLast.map (· + 1)) 0 z hz
    have h2 : (x.dropLast.map (· + 1)).sum =
        x.dropLast.sum + x.dropLast.length := by
      clear hz h1
      induction x.dropLast with
      | nil => simp
      | cons c l ih => simp [ih]; ring
    have h3 := hcpos z hz
    omega
  have hrank : rank_weak_composition x = rank_subset S := rfl
  have hrlt : rank_subset S < Nat.choose (s + n - 1) (n - 1) := by
    have := rank_subset_lt S (s + n - 1) hSsorted hSbound
    rw [hSlen] at this
    exact this
  refine ⟨by rw [hrank]; exact hrlt, ?_⟩
  rw [hrank]
  rw [unrank_weak_composition]
  have hur : unrank_subset (rank_subset S) (s + n - 1) (n - 1) = S := by
    have := unrank_rank_subset S (s + n - 1) hSsorted hSbound
    rw [hSlen] at this
    exact this
  rw [hur, diffDec_append, hS, diffDec_cumsum, accAfter_cumsum]
  have h3 : s + n - 1 - (0 + x.dropLast.sum + x.dropLast.length) = g := by
    rw [hdlen]
    omega
  rw [h3, hxdec]

theorem mul_le_sum : ∀ (l : List Nat) (m : Nat),
    (∀ c ∈ l, m ≤ c) → l.length * m ≤ l.sum := by
  intro l
  induction l with
  | nil => intro m _; simp
  | cons c l ih =>
    intro m h
    have h1 := ih m (fun d hd => h d (by simp [hd]))
    have h2 := h c (by simp)
    simp only [List.length_cons, List.sum_cons]
    have h3 : (l.length + 1) * m = l.length * m + m := by ring
    omega

theorem map_sub_sum : ∀ (l : List Nat) (m : Nat),
    (∀ c ∈ l, m ≤ c) → (l.map (· - m)).sum = l.sum - l.length * m := by
  intro l
  induction l with
  | nil => intro m _; simp
  | cons c l ih =>
    intro m h
    have h1 := ih m (fun d hd => h d (by simp [hd]))
    have h2 := h c (by simp)
    have h3 := mul_le_sum l m (fun d hd => h d (by simp [hd]))
    simp only [List.map_cons, List.sum_cons, List.length_cons]
    have h4 : (l.length + 1) * m = l.length * m + m := by ring
    omega

theorem map_sub_add : ∀ (l : List Nat) (m : Nat),
    (∀ c ∈ l, m ≤ c) → (l.map (· - m)).map (· + m) = l := by
  intro l
  induction l with
  | nil => intro m _; rfl
  | cons c l ih =>
    intro m h
    have h2 := h c (by simp)
    simp only [List.map_cons]
    rw [ih m (fun d hd => h d (by simp [hd]))]
    have h3 : c - m + m = c := by omega
    rw [h3]

theorem toNat_sum : ∀ (l : List Int), (∀ c ∈ l, 0 ≤ c) →
    (((l.map Int.toNat).sum : Nat) : Int) = l.sum := by
  intro l
  induction l with
  | nil => intro _; simp
  | cons c l ih =>
    intro h
    have h1 := ih (fun d hd => h d (by simp [hd]))
    have h2 := h c (by simp)
    simp only [List.map_cons, List.sum_cons]
    rw [Nat.cast_add, h1, Int.toNat_of_nonneg h2]

theorem dreidel_state_mem (np nc mc : Nat) (pl : List Nat) (pot : Nat)
    (t : Nat) (hnp : 1 ≤ np) (hplen : pl.length = np)
    (hpl : ∀ c ∈ pl, mc ≤ c) (hpot : 1 ≤ pot)
    (hsum : pl.sum + pot = nc) (ht : t < np) :
    (pl ++ [pot], t) ∈ dreidel_all_states np nc mc := by
  have hge : np * mc ≤ pl.sum := by
    have h1 := mul_le_sum pl mc hpl
    rw [hplen] at h1
    exact h1
  have hnc1 : np * mc + 1 ≤ nc := by omega
  obtain ⟨hb1, hb2⟩ := dreidel_bounds np nc mc hnc1
  set s := nc - 1 - np * mc with hs
  set x := pl.map (· - mc) ++ [pot - 1] with hx
  have hxlen : x.length = np + 1 := by
    rw [hx]
    simp [hplen]
  have hxsum : x.sum = s := by
    rw [hx, List.sum_append, map_sub_sum pl mc hpl, hplen]
    simp only [List.sum_cons, List.sum_nil]
    omega
  obtain ⟨hrlt, hrinv⟩ := rank_weak_reverse (np + 1) s x (by omega)
    hxlen hxsum
  have hrlt2 : rank_weak_composition x <
      Nat.choose (((nc : Int) - 1 - np * ((mc : Int) - 1)).toNat) np := by
    rw [hb1]
    have he : s + (np + 1) - 1 = s + np := by omega
    rw [he] at hrlt
    have he2 : (np + 1) - 1 = np := by omega
    rw [he2] at hrlt
    exact hrlt
  have hpos := flatMap_range_getElem?
    (fun rank => (List.range np).map (fun turn =>
      (dreidelDecode mc (unrank_weak_composition rank (np + 1)
        (((nc : Int) - 1 - np * (mc : Int)).toNat)), turn)))
    np (fun i => by simp) _ (rank_weak_composition x) t hrlt2 ht
  have hdec : dreidelDecode mc x = pl ++ [pot] := by
    rw [hx]
    unfold dreidelDecode
    rw [List.dropLast_concat, List.getLastD_concat, map_sub_add pl mc hpl]
    have h5 : pot - 1 + 1 = pot := by omega
    rw [h5]
  have helem : (dreidel_all_states np nc mc)[rank_weak_composition x * np
      + t]? = some (pl ++ [pot], t) := by
    unfold dreidel_all_states
    rw [hpos, List.getElem?_map, List.getElem?_range ht]
    simp only [Option.map_some']
    rw [hb2, hrinv, hdec]
  obtain ⟨hlt, heq⟩ := List.getElem?_eq_some.1 helem
  rw [← heq]
  exact List.getElem_mem hlt

theorem same_level_successor (isEv : Bool) (np nc mc : Nat)
    (b : List Int) (p : Int) (turn : Int) (s' : List Int) (t' : Int)
    (hnp : 1 ≤ np) (hblen : b.length = np)
    (hball : ∀ c ∈ b, (mc : Int) - 1 ≤ c) (hp1 : 1 ≤ p)
    (hbsum : b.sum + p = (nc : Int))
    (hio : remove_losers isEv (mc : Int) (b ++ [p]) turn = some (s', t'))
    (hsame : s'.length = np + 1) :
    (s'.map Int.toNat, t'.toNat) ∈ dreidel_all_states np nc mc ∧
    s'.sum = (nc : Int) ∧ (∀ c ∈ s'.dropLast, (mc : Int) ≤ c) ∧
    1 ≤ s'.getLastD 0 := by
  have hs0len : (b ++ [p]).length = np + 1 := by simp [hblen]
  obtain ⟨he1, he2, he3, he4, he5⟩ :=
    remove_losers_same_length isEv (mc : Int) (b ++ [p]) turn s' t'
      (by omega) hio (by rw [hs0len]; exact hsame)
  subst he1
  have hmem' : (mc : Int) - 1 ∉ b :=
    fun hc => he2 (List.mem_append.2 (Or.inl hc))
  have hballs : ∀ c ∈ b, (mc : Int) ≤ c := by
    intro c hc
    have h1 := hball c hc
    have h2 : c ≠ (mc : Int) - 1 := fun he => hmem' (he ▸ hc)
    omega
  have hbnn : ∀ c ∈ b, 0 ≤ c := by
    intro c hc
    have h1 := hballs c hc
    have h2 : (0 : Int) ≤ (mc : Nat) := Nat.cast_nonneg mc
    omega
  have hcast1 := toNat_sum b hbnn
  have hplN : ∀ c ∈ b.map Int.toNat, mc ≤ c := by
    intro c hc
    rcases List.mem_map.1 hc with ⟨z, hz, rfl⟩
    have := hballs z hz
    omega
  have hsumN : (b.map Int.toNat).sum + p.toNat = nc := by
    have h6 : (((b.map Int.toNat).sum + p.toNat : Nat) : Int) =
        ((nc : Nat) : Int) := by
      rw [Nat.cast_add, hcast1,
        Int.toNat_of_nonneg (show (0 : Int) ≤ p by omega)]
      exact hbsum
    exact_mod_cast h6
  rw [hs0len] at he5
  have ht'N : t'.toNat < np := by
    push_cast at he5
    omega
  have hmemN := dreidel_state_mem np nc mc (b.map Int.toNat) p.toNat
    t'.toNat hnp (by rw [List.length_map]; exact hblen) hplN (by omega)
    hsumN ht'N
  refine ⟨?_, ?_, ?_, ?_⟩
  · rw [List.map_append]
    simpa using hmemN
  · simp only [List.sum_append, List.sum_cons, List.sum_nil]
    omega
  · rw [List.dropLast_concat]
    exact hballs
  · rw [List.getLastD_concat]
    exact hp1

/-- C10: every same-level successor of an enumerated coin-game state
(one from which `remove_losers` deletes no player, witnessed by an
unchanged slot count) is itself a state that `all_states` enumerates at
the same level: it keeps the length `num_players + 1`, the same total
number of coins, every player slot at least `min_coins` and a pot slot of
at least 1 — the pot-emptying Gimel and Hei outcomes maintain this via
the re-ante rule that charges every player one coin and resets the pot to
`num_players`. -/
theorem claim10_same_level_closure (isEv : Bool) (np nc mc : Nat)
    (halfOdd : Int) (players : List Int) (pot : Int) (turn : Nat)
    (hh0 : 0 ≤ halfOdd) (hh1 : halfOdd ≤ 1)
    (hnp : 1 ≤ np) (hplen : players.length = np) (hturn : turn < np)
    (hpl : ∀ c ∈ players, (mc : Int) ≤ c) (hpot : 1 ≤ pot)
    (hsum : players.sum + pot = (nc : Int)) :
    ∀ (i : Nat) (s' : List Int) (t' : Int),
      (dreidel_next_states isEv (mc : Int) np halfOdd
        (players ++ [pot]) turn)[i]? = some (some (s', t')) →
      s'.length = np + 1 →
      (s'.map Int.toNat, t'.toNat) ∈ dreidel_all_states np nc mc ∧
      s'.sum = (nc : Int) ∧ (∀ c ∈ s'.dropLast, (mc : Int) ≤ c) ∧
      1 ≤ s'.getLastD 0 := by
  intro i s' t' hio hsame
  match i with
  | 0 =>
    simp only [dreidel_next_states, List.getElem?_cons_zero,
      Option.some.injEq] at hio
    exact same_level_successor isEv np nc mc players pot (turn : Int)
      s' t' hnp hplen (fun c hc => by have := hpl c hc; omega) hpot hsum
      hio hsame
  | 1 =>
    simp only [dreidel_next_states, List.getElem?_cons_succ,
      List.getElem?_cons_zero, Option.some.injEq] at hio
    obtain ⟨bG, hGeq, hGlen, hGall, hGex, hGsum⟩ :=
      gimel_shape np (mc : Int) players pot turn hplen hturn hpl hpot
    rw [hGeq] at hio
    exact same_level_successor isEv np nc mc bG (np : Int) (turn : Int)
      s' t' hnp hGlen hGall (by exact_mod_cast hnp) (by rw [hGsum]; exact hsum)
      hio hsame
  | 2 =>
    simp only [dreidel_next_states, List.getElem?_cons_succ,
      List.getElem?_cons_zero, Option.some.injEq] at hio
    obtain ⟨bH, pH, hHeq, hHlen, hHall, hHex, hHp1, hHdisj, hHsum⟩ :=
      hei_shape np (mc : Int) halfOdd players pot turn hplen hturn hpl
        hpot hh0 hh1
    rw [hHeq] at hio
    exact same_level_successor isEv np nc mc bH pH (turn : Int)
      s' t' hnp hHlen hHall hHp1 (by rw [hHsum]; exact hsum) hio hsame
  | 3 =>
    simp only [dreidel_next_states, List.getElem?_cons_succ,
      List.getElem?_cons_zero, Option.some.injEq] at hio
    obtain ⟨bS, hSeq, hSlen, hSall, hScnt1, hSex, hSsum⟩ :=
      shin_shape np (mc : Int) players pot turn hplen hturn hpl
    rw [hSeq] at hio
    exact same_level_successor isEv np nc mc bS (pot + 1) (turn : Int)
      s' t' hnp hSlen hSall (by omega) (by rw [hSsum]; exact hsum) hio hsame
  | n + 4 => simp [dreidel_next_states] at hio

/-- Witness for C10: the Nun outcome of the 2-player state `(0, 0, 2)`
with 2 coins, `min_coins = 0`, is the same state at turn 1, and it is
enumerated by `all_states` at level 2. -/
theorem claim10_witness :
    (([0, 0, 2] : List Int).map Int.toNat, (1 : Int).toNat) ∈
      dreidel_all_states 2 2 0 ∧
    ([0, 0, 2] : List Int).sum = ((2 : Nat) : Int) ∧
    1 ≤ ([0, 0, 2] : List Int).getLastD 0 :=
  ⟨(claim10_same_level_closure true 2 2 0 1 [0, 0] 2 0 (by decide)
      (by decide) (by decide) (by decide) (by decide) (by decide)
      (by decide) (by decide) 0 [0, 0, 2] 1 (by decide) (by decide)).1,
   (claim10_same_level_closure true 2 2 0 1 [0, 0] 2 0 (by decide)
      (by decide) (by decide) (by decide) (by decide) (by decide)
      (by decide) (by decide) 0 [0, 0, 2] 1 (by decide) (by decide)).2.1,
   (claim10_same_level_closure true 2 2 0 1 [0, 0] 2 0 (by decide)
      (by decide) (by decide) (by decide) (by decide) (by decide)
      (by decide) (by decide) 0 [0, 0, 2] 1 (by decide) (by decide)).2.2.2⟩
